import Mathlib

/-!
# Shallow embedding of the csv-rw value / row codec

This file models the value-parsing and row-codec core of the `csv-rw`
repository (files `src/parser.ts`, `src/csv.ts`, `src/index.ts`) and proves
or refutes the specification claims about it.

Strings are modelled as `List Char`.  JavaScript numbers are modelled as
`JSNum`: either an exact rational (`fin`) or an infinity.  Every JavaScript
double is a dyadic rational, so exact rationals subsume all finite double
values; double rounding of parsed literals is not modelled, which is faithful
for the integer-valued data exercised by the claims.  `toLowerCase` is
modelled as the ASCII simple case mapping (non-ASCII characters unchanged),
and every theorem whose truth depends on lower-casing therefore restricts
its strings to ASCII characters, on which the mapping is exact.
-/

namespace CsvRw

/-- JavaScript whitespace: the full set of characters ECMAScript `\s` and
`String.prototype.trim` treat as blank — WhiteSpace (TAB, VT, FF, ZWNBSP
U+FEFF and the Unicode Space_Separator category: SP, NBSP U+00A0, U+1680,
U+2000–U+200A, U+202F, U+205F, U+3000) together with the LineTerminators
(LF, CR, LS U+2028, PS U+2029). -/
def isWs (c : Char) : Bool :=
  c == ' ' || c == '\t' || c == '\n' || c == '\r' || c == '\x0b' || c == '\x0c' ||
  c == '\u00A0' || c == '\u1680' ||
  (0x2000 ≤ c.toNat && c.toNat ≤ 0x200A) ||
  c == '\u2028' || c == '\u2029' || c == '\u202F' || c == '\u205F' ||
  c == '\u3000' || c == '\uFEFF'

/-- JavaScript line terminators, which the regexp `.` never matches. -/
def isLineTerm (c : Char) : Bool :=
  c == '\n' || c == '\r' || c == '\u2028' || c == '\u2029'

/-- ASCII simple lower-casing of one character (model of the per-character
action of `String.prototype.toLowerCase`). -/
def toLowerChar (c : Char) : Char :=
  if 65 ≤ c.toNat ∧ c.toNat ≤ 90 then Char.ofNat (c.toNat + 32) else c

/-- Model of `String.prototype.toLowerCase`. -/
def jsToLower (s : List Char) : List Char := s.map toLowerChar

/-- Model of `String.prototype.trim`. -/
def jsTrim (s : List Char) : List Char :=
  ((s.dropWhile isWs).reverse.dropWhile isWs).reverse

/-- A JavaScript number that is not NaN: an exact rational or an infinity. -/
inductive JSNum where
  | fin (q : ℚ)
  | inf
  | negInf
deriving DecidableEq, Repr

/-- The dynamic value type of the library: `string | number | boolean | null`. -/
inductive Value where
  | null
  | bool (b : Bool)
  | num (n : JSNum)
  | str (s : List Char)
deriving DecidableEq, Repr

/-- Decimal digit test. -/
def isDigitB (c : Char) : Bool := '0' ≤ c && c ≤ '9'

/-- Numeric value of a decimal digit character. -/
def digitVal (c : Char) : Nat := c.toNat - 48

/-- Value of a list of decimal digits, most significant first. -/
def digitsToNat (l : List Char) : Nat :=
  l.foldl (fun a c => a * 10 + digitVal c) 0

/-- Digit value in an arbitrary base (used for `0x` / `0o` / `0b` literals). -/
def radixDigit? (base : Nat) (c : Char) : Option Nat :=
  let d :=
    if '0' ≤ c ∧ c ≤ '9' then some (c.toNat - 48)
    else if 'a' ≤ c ∧ c ≤ 'f' then some (c.toNat - 87)
    else if 'A' ≤ c ∧ c ≤ 'F' then some (c.toNat - 55)
    else none
  match d with
  | some d => if d < base then some d else none
  | none => none

/-- Value of a nonempty all-digit string in the given base, `none` otherwise. -/
def radixVal (base : Nat) : List Char → Option Nat
  | [] => none
  | c :: rest =>
    match radixDigit? base c with
    | none => none
    | some d =>
      if rest = [] then some d
      else (radixVal base rest).map (fun n => d * base ^ rest.length + n)

/-- A nonempty run of decimal digits, as a value; `none` otherwise. -/
def allDigitsVal (l : List Char) : Option Nat :=
  if l ≠ [] ∧ l.all isDigitB then some (digitsToNat l) else none

/-- The `ExponentPart?` tail of a decimal literal: empty means exponent 0. -/
def parseExpPart (l : List Char) : Option ℤ :=
  match l with
  | [] => some 0
  | e :: rest =>
    if e = 'e' ∨ e = 'E' then
      match rest with
      | c :: ds =>
        if c = '+' then (allDigitsVal ds).map (fun (n : Nat) => (n : ℤ))
        else if c = '-' then (allDigitsVal ds).map (fun (n : Nat) => -(n : ℤ))
        else (allDigitsVal rest).map (fun (n : Nat) => (n : ℤ))
      | [] => (allDigitsVal rest).map (fun (n : Nat) => (n : ℤ))
    else none

/-- Rational value of `ip . fp × 10 ^ e`, built with `mkRat` so that it
evaluates by kernel reduction. -/
def mkDec (ip fp : List Char) (e : ℤ) : ℚ :=
  let m : ℤ := (digitsToNat ip * 10 ^ fp.length + digitsToNat fp : ℕ)
  if 0 ≤ e then mkRat (m * 10 ^ e.toNat) (10 ^ fp.length)
  else mkRat m (10 ^ fp.length * 10 ^ (-e).toNat)

/-- Unsigned decimal literal (`DecimalDigits . DecimalDigits? ExponentPart?`
 / `. DecimalDigits ExponentPart?` / `DecimalDigits ExponentPart?`). -/
def parseDecimal (s : List Char) : Option ℚ :=
  let ip := s.takeWhile isDigitB
  let r1 := s.dropWhile isDigitB
  match r1 with
  | c :: r2 =>
    if c = '.' then
      let fp := r2.takeWhile isDigitB
      let r3 := r2.dropWhile isDigitB
      if ip = [] ∧ fp = [] then none
      else (parseExpPart r3).map (fun e => mkDec ip fp e)
    else if ip = [] then none
    else (parseExpPart r1).map (fun e => mkDec ip [] e)
  | [] =>
    if ip = [] then none
    else (parseExpPart r1).map (fun e => mkDec ip [] e)

/-- Unsigned part of a string numeric literal: `Infinity` or a decimal. -/
def unsignedNum (s : List Char) : Option JSNum :=
  if s = "Infinity".data then some .inf
  else (parseDecimal s).map .fin

/-- Negation on `JSNum`. -/
def negNum : JSNum → JSNum
  | .fin q => .fin (-q)
  | .inf => .negInf
  | .negInf => .inf

/-- Optionally signed decimal / Infinity literal. -/
def signedNum (s : List Char) : Option JSNum :=
  match s with
  | c :: r =>
    if c = '+' then unsignedNum r
    else if c = '-' then (unsignedNum r).map negNum
    else unsignedNum s
  | [] => unsignedNum s

/-- Model of ECMAScript `StringToNumber` (the coercion performed by unary
`+v`): `none` means NaN.  The empty (after trimming) string is `0`; `0x`,
`0o`, `0b` radix literals are unsigned; otherwise an optionally signed
decimal or `Infinity` literal that must consume the whole string. -/
def jsStrToNumCore (t : List Char) : Option JSNum :=
  match t with
  | a :: x :: rest =>
    if a = '0' ∧ (x = 'x' ∨ x = 'X') then (radixVal 16 rest).map (fun (n : Nat) => JSNum.fin (n : ℚ))
    else if a = '0' ∧ (x = 'o' ∨ x = 'O') then (radixVal 8 rest).map (fun (n : Nat) => JSNum.fin (n : ℚ))
    else if a = '0' ∧ (x = 'b' ∨ x = 'B') then (radixVal 2 rest).map (fun (n : Nat) => JSNum.fin (n : ℚ))
    else signedNum (a :: x :: rest)
  | t => signedNum t

def jsStrToNum (s : List Char) : Option JSNum :=
  let t := jsTrim s
  if t = [] then some (.fin 0) else jsStrToNumCore t

/-- Embedding of `parseValue` (src/parser.ts lines 7–23): lower-case and trim,
then `null`/empty ↦ null, `true`/`false` ↦ boolean, numeric ↦ number,
otherwise the (lower-cased, trimmed) string itself. -/
def parseValue (v : List Char) : Value :=
  let v := jsTrim (jsToLower v)
  if v = "null".data ∨ v = [] then .null
  else if v = "true".data ∨ v = "false".data then .bool (v = "true".data)
  else
    match jsStrToNum v with
    | some n => .num n
    | none => .str v

example : parseValue "1".data = .num (.fin 1) := by decide
example : parseValue " TRUE ".data = .bool true := by decide
example : parseValue "Jane".data = .str "jane".data := by decide
example : parseValue "null".data = .null := by decide
example : parseValue "1.5".data = .num (.fin (mkRat 3 2)) := by decide
example : parseValue "0x1A".data = .num (.fin 26) := by decide
example : parseValue "-2e1".data = .num (.fin (-20)) := by decide

/-!
## The field tokenizer of `parseRow`

`parseRow` (src/parser.ts line 50) tokenizes a line with the global regexp
`/(".*?"|[^",\s]+)(?=\s*,|\s*$)/g` — note the hard-coded `,`, independent of
the delimiter option.  We model the JavaScript global-match scan directly:
at each position try the ordered alternation (lazy quoted run first, then a
greedy run of characters outside `",` and whitespace), subject to the
lookahead `(?=\s*,|\s*$)`; on failure advance one character.
-/

/-- The character class `[^",\s]`. -/
def isUnq (c : Char) : Bool := !(c == '"' || c == ',' || isWs c)

/-- The lookahead `(?=\s*,|\s*$)`: after optional whitespace, a comma or the
end of the line. -/
def lookaheadOk (l : List Char) : Bool :=
  match l.dropWhile isWs with
  | [] => true
  | c :: _ => c == ','

/-- Lazy scan for the closing quote of `".*?"`: `acc` holds the consumed part
of the token (starting with the opening quote).  At each `"` the lookahead is
tried; on failure the `.*?` swallows the quote and the scan continues.  `.`
never matches a line terminator, so hitting one fails the alternative. -/
def quotedScan (acc : List Char) : List Char → Option (List Char × List Char)
  | [] => none
  | c :: rest =>
    if c = '"' then
      if lookaheadOk rest then some (acc ++ ['"'], rest)
      else quotedScan (acc ++ ['"']) rest
    else if isLineTerm c then none
    else quotedScan (acc ++ [c]) rest

/-- The `".*?"` alternative, with its lookahead. -/
def matchQuoted : List Char → Option (List Char × List Char)
  | [] => none
  | c :: rest => if c = '"' then quotedScan ['"'] rest else none

/-- Greedy-with-backtracking tail of `[^",\s]+`: `revRun` is the reversed
maximal run; shorter candidate matches are tried by pushing characters back.
(Backtracking can never actually succeed — a pushed-back run character fails
the lookahead — but we model it as the regexp engine does.) -/
def unqBack : List Char → List Char → Option (List Char × List Char)
  | [], _ => none
  | c :: rs, rest =>
    if lookaheadOk rest then some ((c :: rs).reverse, rest)
    else unqBack rs (c :: rest)

/-- The `[^",\s]+` alternative, with its lookahead. -/
def matchUnquoted (l : List Char) : Option (List Char × List Char) :=
  unqBack (l.takeWhile isUnq).reverse (l.dropWhile isUnq)

/-- One match attempt at the current position: ordered alternation. -/
def matchAt (l : List Char) : Option (List Char × List Char) :=
  (matchQuoted l).orElse (fun _ => matchUnquoted l)

/-- Fuel-indexed global scan (fuel bounds the number of scan steps so the
definition reduces in the kernel). -/
def regexScanAux : Nat → List Char → List (List Char)
  | 0, _ => []
  | _ + 1, [] => []
  | fuel + 1, c :: cs =>
    match matchAt (c :: cs) with
    | some (tok, rest) => tok :: regexScanAux fuel rest
    | none => regexScanAux fuel cs

/-- All matches of the tokenizing regexp, in order (model of
`line.match(/(".*?"|[^",\s]+)(?=\s*,|\s*$)/g)`, with `[]` for `null`). -/
def regexScan (l : List Char) : List (List Char) :=
  regexScanAux l.length l

example : regexScan "1,Jane,19".data = ["1".data, "Jane".data, "19".data] := by decide
example : regexScan "a,,b".data = ["a".data, "b".data] := by decide
example : regexScan "\"a,b\",c".data = ["\"a,b\"".data, "c".data] := by decide
example : regexScan "a b".data = ["b".data] := by decide
example : regexScan "".data = [] := by decide
example : regexScan " x , y ".data = ["x".data, "y".data] := by decide

/-!
## Rows and the row codec
-/

/-- A decoded row: a JavaScript object modelled as an insertion-ordered
association list from field name to value. -/
abbrev Row := List (List Char × Value)

/-- Property read `entry[h]` (`none` models `undefined`). -/
def rowLookup (r : Row) (k : List Char) : Option Value :=
  match r with
  | [] => none
  | (k', v) :: rest => if k' = k then some v else rowLookup rest k

/-- Property write `row[h] = v`: updates an existing key in place, otherwise
appends (JavaScript object insertion order). -/
def objSet (r : Row) (k : List Char) (v : Value) : Row :=
  match r with
  | [] => [(k, v)]
  | (k', v') :: rest => if k' = k then (k', v) :: rest else (k', v') :: objSet rest k v

/-- The quote stripping of `parseRow` (src/parser.ts lines 57–59):
`v.substring(1, v.length - 1)` when the token starts and ends with `"`.
JavaScript `substring` swaps its arguments when `start > end`, so a
one-character token is returned unchanged. -/
def stripQuotes (v : List Char) : List Char :=
  if v.head? = some '"' ∧ v.getLast? = some '"' then
    if v.length ≤ 1 then v else (v.drop 1).dropLast
  else v

/-- The per-header loop of `parseRow` (src/parser.ts lines 54–62): `none`
models the `TypeError` thrown when `parsed[i]` is `undefined` (fewer tokens
than headers). -/
def parseRowLoop (row : Row) : List (List Char) → List (List Char) → Option Row
  | [], _ => some row
  | _ :: _, [] => none
  | h :: hs, v :: vs => parseRowLoop (objSet row h (parseValue (stripQuotes v))) hs vs

/-- Result of `parseRow`: an object when headers were supplied, an array
otherwise. -/
inductive RowResult where
  | obj (r : Row)
  | arr (vs : List Value)
deriving DecidableEq, Repr

/-- Embedding of `parseRow` (src/parser.ts lines 42–68).  `line.match(...)`
returns `null` when there is no match; any later element access on `null`
throws, which `none` models. -/
def parseRow (line : List Char) (headers : List (List Char)) : Option RowResult :=
  match regexScan line with
  | [] => none
  | p :: ps =>
    if headers.length > 0 then (parseRowLoop [] headers (p :: ps)).map RowResult.obj
    else some (.arr ((p :: ps).map parseValue))

/-- `parseRow` in its record mode (headers supplied), as used by `CSV.read`. -/
def parseRowObj (line : List Char) (headers : List (List Char)) : Option Row :=
  match parseRow line headers with
  | some (.obj r) => some r
  | _ => none

example : parseRowObj "1,Jane,19".data ["id".data, "name".data, "age".data] =
    some [("id".data, .num (.fin 1)), ("name".data, .str "jane".data),
      ("age".data, .num (.fin 19))] := by decide
example : parseRowObj "x".data ["a".data, "b".data] = none := by decide

/-!
## Value encoding
-/

/-- Decimal digit character for `n < 10`. -/
def digitChar (n : Nat) : Char := Char.ofNat (48 + n)

/-- Decimal digits of `n`, most significant first (fuel-indexed so it
reduces in the kernel). -/
def natToCharsAux : Nat → Nat → List Char
  | 0, _ => []
  | fuel + 1, n =>
    if n < 10 then [digitChar n]
    else natToCharsAux fuel (n / 10) ++ [digitChar (n % 10)]

/-- Decimal representation of a natural number. -/
def natToChars (n : Nat) : List Char := natToCharsAux (n + 1) n

/-- Decimal representation of an integer. -/
def intToChars (n : ℤ) : List Char :=
  if n < 0 then '-' :: natToChars n.natAbs else natToChars n.toNat

/-- Fractional digits: `k`-digit zero-padded representation of `m`, with
trailing zeros removed. -/
def fracChars (m k : Nat) : List Char :=
  let ds := natToChars m
  let padded := List.replicate (k - ds.length) '0' ++ ds
  (padded.reverse.dropWhile (· == '0')).reverse

/-- `Number.prototype.toString` on a finite value.  Integers print as decimal
integers.  Every actual JavaScript double has a dyadic (hence terminating)
decimal expansion, which the first branch prints; the final branch is an
arbitrary total fallback for non-double rationals, and exponential notation
for extreme magnitudes is not modelled (no claim exercises either). -/
def finNumToChars (q : ℚ) : List Char :=
  if q.den = 1 then intToChars q.num
  else
    match (List.range (q.den + 1)).find? (fun k => 10 ^ k % q.den = 0) with
    | some k =>
      let m := q.num.natAbs * (10 ^ k / q.den)
      (if q.num < 0 then ['-'] else []) ++
        natToChars (m / 10 ^ k) ++ '.' :: fracChars (m % 10 ^ k) k
    | none => intToChars q.num ++ '/' :: natToChars q.den

/-- `toString` / template-literal conversion of a `Value`. -/
def valueToString : Value → List Char
  | .null => "null".data
  | .bool true => "true".data
  | .bool false => "false".data
  | .num (.fin q) => finNumToChars q
  | .num .inf => "Infinity".data
  | .num .negInf => "-Infinity".data
  | .str s => s

example : valueToString (.num (.fin 19)) = "19".data := by decide
example : valueToString (.num (.fin (-7))) = "-7".data := by decide
example : valueToString (.num (.fin (mkRat 3 2))) = "1.5".data := by decide

/-- `s.includes(sub)` on strings. -/
def listStartsWith : List Char → List Char → Bool
  | _, [] => true
  | [], _ :: _ => false
  | c :: cs, d :: ds => c == d && listStartsWith cs ds

/-- Substring containment, model of `String.prototype.includes`. -/
def listContains : List Char → List Char → Bool
  | s, sub =>
    if listStartsWith s sub then true
    else
      match s with
      | [] => false
      | _ :: tail => listContains tail sub

/-- The per-header body of `getRowValuesFromHeaders`: `null` becomes the
string `"null"`, a value whose string form contains the delimiter is wrapped
in double quotes, anything else is passed through; a missing key yields
`undefined` (`none`). -/
def encodeField (entry : Row) (delim : List Char) (h : List Char) : Option Value :=
  match rowLookup entry h with
  | none => none
  | some .null => some (.str "null".data)
  | some v =>
    if listContains (valueToString v) delim then
      some (.str ('"' :: (valueToString v ++ ['"'])))
    else some v

/-- Embedding of `getRowValuesFromHeaders` (src/parser.ts lines 76–90). -/
def getRowValuesFromHeaders (headers : List (List Char)) (entry : Row)
    (delim : List Char) : List (Option Value) :=
  headers.map (encodeField entry delim)

/-- Interleaving of chunks with a separator (the joining step of
`Array.prototype.join`). -/
def joinChunks (sep : List Char) : List (List Char) → List Char
  | [] => []
  | [x] => x
  | x :: xs => x ++ sep ++ joinChunks sep xs

/-- One `Array.prototype.join` element: `undefined` renders as the empty
string, everything else via `toString`. -/
def renderOptValue : Option Value → List Char
  | none => []
  | some v => valueToString v

/-- `Array.prototype.join`. -/
def joinVals (vs : List (Option Value)) (delim : List Char) : List Char :=
  joinChunks delim (vs.map renderOptValue)

/-- The encoded row of a record per the claim: `getRowValuesFromHeaders`
joined with the delimiter. -/
def encodeRow (headers : List (List Char)) (entry : Row) (delim : List Char) : List Char :=
  joinVals (getRowValuesFromHeaders headers entry delim) delim

example : encodeRow ["name".data, "age".data]
    [("name".data, .str "a,b".data), ("age".data, .num (.fin 3))] ",".data
    = "\"a,b\",3".data := by decide

/-!
## Header stripping (`CSV.stripHeaders`, src/csv.ts lines 49–70)
-/

/-- Removal of the `^(n|b|s):` type tag. -/
def stripTypeTag : List Char → List Char
  | 'n' :: ':' :: rest => rest
  | 'b' :: ':' :: rest => rest
  | 's' :: ':' :: rest => rest
  | h => h

/-- Removal of the trailing `?` optionality marker. -/
def stripOpt (h : List Char) : List Char :=
  if h.getLast? = some '?' then h.dropLast else h

/-- One header token after `h.replace(/^(n|b|s):|\?$/g, "").trim()`. -/
def stripHeaderToken (h : List Char) : List Char :=
  jsTrim (stripOpt (stripTypeTag h))

/-- The character class of `/[^0-9a-z]/i` complemented: ASCII alphanumerics. -/
def isAlnum (c : Char) : Bool :=
  ('0' ≤ c && c ≤ '9') || ('a' ≤ c && c ≤ 'z') || ('A' ≤ c && c ≤ 'Z')

/-- `h.match(/[^0-9a-z]/i)`: the first non-alphanumeric character. -/
def findInvalid (h : List Char) : Option Char := h.find? (fun c => !isAlnum c)

/-- The validation loop of `stripHeaders`: first offending
(stripped header, invalid character) pair. -/
def checkHeaders : List (List Char) → Option (List Char × Char)
  | [] => none
  | h :: rest =>
    match findInvalid h with
    | some c => some (h, c)
    | none => checkHeaders rest

deriving instance DecidableEq for Except

/-- Embedding of `CSV.stripHeaders`: strip every token, then throw
(`.error`, carrying the stripped header and the invalid character named by
the message) at the first token containing a non-alphanumeric character. -/
def stripHeaders (headers : List (List Char)) : Except (List Char × Char) (List (List Char)) :=
  if headers = [] then .ok []
  else
    let stripped := headers.map stripHeaderToken
    match checkHeaders stripped with
    | some e => .error e
    | none => .ok stripped

example : stripHeaders ["n:age?".data, "isAlive".data] =
    .ok ["age".data, "isAlive".data] := by decide
example : stripHeaders ["na me".data] = .error ("na me".data, ' ') := by decide
example : stripHeaders ["?".data] = .ok [[]] := by decide

/-- Decoding one line under a raw (unstripped) header list: construction-time
stripping followed by `parseRow` (the composition `CSV` applies). -/
def decodeWithRawHeaders (raw : List (List Char)) (line : List Char) :
    Except (List Char × Char) (Option Row) :=
  (stripHeaders raw).map (fun ns => parseRowObj line ns)

/-!
## File-level operations (`CSV` of src/csv.ts and src/index.ts)

A file is modelled by its record lines (the header line, rewritten verbatim
by `clear`, is kept separate and never decoded).  Every operation is a pure
function of that line list.
-/

/-- The line `CSV.write` (src/csv.ts lines 151–173) appends for one entry:
`getRowValuesFromHeaders` (note: called without a delimiter option, so
quoting always tests `,`), `undefined` mapped to `"null"`, joined with the
collection delimiter. -/
def writeLine (headers : List (List Char)) (delim : List Char) (entry : Row) : List Char :=
  joinVals
    ((getRowValuesFromHeaders headers entry ",".data).map
      (fun v => match v with | none => some (.str "null".data) | some v => some v))
    delim

/-- `CSV.write`: append one encoded line per entry. -/
def csvWrite (lines : List (List Char)) (headers : List (List Char))
    (delim : List Char) (entries : List Row) : List (List Char) :=
  lines ++ entries.map (writeLine headers delim)

/-- `CSV.read`: decode every record line; a throwing `parseRow` rejects the
whole read (`none`). -/
def csvRead (lines : List (List Char)) (headers : List (List Char)) : Option (List Row) :=
  lines.mapM (fun l => parseRowObj l headers)

/-- `CSV.clear`: truncate to the header line only. -/
def csvClear : List (List Char) := []

/-- Stable insertion of one element into a comparator-sorted list (the
element goes after every earlier element it does not strictly precede). -/
def jsInsert (cmp : Row → Row → ℚ) (a : Row) : List Row → List Row
  | [] => [a]
  | b :: rest => if cmp a b < 0 then a :: b :: rest else b :: jsInsert cmp a rest

/-- Model of `Array.prototype.sort` with a consistent comparator: the stable
comparator-sorted permutation. -/
def jsSort (cmp : Row → Row → ℚ) (l : List Row) : List Row :=
  l.foldl (fun acc a => jsInsert cmp a acc) []

/-- Embedding of `CSV.sort` of src/csv.ts (lines 237–243): read, sort, and —
when `write` is set — `this.write(entries)`, which *appends* the sorted
entries to the file as it stands (no `clear`).  Returns the resulting file
lines and the sorted entries. -/
def csvSort (lines : List (List Char)) (headers : List (List Char)) (delim : List Char)
    (cmp : Row → Row → ℚ) (write : Bool) : Option (List (List Char) × List Row) :=
  match csvRead lines headers with
  | none => none
  | some entries =>
    let sorted := jsSort cmp entries
    some (if write then csvWrite lines headers delim sorted else lines, sorted)

/-- Embedding of `CSV.sort` of src/index.ts (lines 225–242): when `write` is
set the file is cleared and rewritten with the sorted entries. -/
def csvSortIndex (lines : List (List Char)) (headers : List (List Char)) (delim : List Char)
    (cmp : Row → Row → ℚ) (write : Bool) : Option (List (List Char) × List Row) :=
  match csvRead lines headers with
  | none => none
  | some entries =>
    let sorted := jsSort cmp entries
    some (if write then csvWrite csvClear headers delim sorted else lines, sorted)

/-- Embedding of `CSV.delete` (src/csv.ts lines 262–278) called with a
predicate: `findIndex`; on `-1` return with the file untouched, otherwise
splice out the entry, clear, and rewrite. -/
def csvDeleteFn (lines : List (List Char)) (headers : List (List Char))
    (delim : List Char) (p : Row → Bool) : Option (List (List Char)) :=
  match csvRead lines headers with
  | none => none
  | some entries =>
    match entries.findIdx? p with
    | none => some lines
    | some i => some (csvWrite csvClear headers delim (entries.eraseIdx i))

/-- Embedding of `CSV.delete` called with a numeric index `i ≥ 0`: the
`index === -1` early return cannot fire, `splice(i, 1)` is a no-op when no
entry exists at `i`, and the file is cleared and rewritten regardless. -/
def csvDeleteIdx (lines : List (List Char)) (headers : List (List Char))
    (delim : List Char) (i : Nat) : Option (List (List Char)) :=
  match csvRead lines headers with
  | none => none
  | some entries => some (csvWrite csvClear headers delim (entries.eraseIdx i))

example : csvRead ["john,21".data, "jane,19".data] ["name".data, "age".data] =
    some [[("name".data, .str "john".data), ("age".data, .num (.fin 21))],
      [("name".data, .str "jane".data), ("age".data, .num (.fin 19))]] := by decide

/-!
## Predicates and helper values used by the claim statements
-/

/-- The keys of a row, in insertion order. -/
def rowKeys (r : Row) : List (List Char) := r.map (fun p => p.1)

/-- The record with the given field names, field `h` holding `f h`. -/
def mkEntry (headers : List (List Char)) (f : List Char → Value) : Row :=
  headers.map (fun h => (h, f h))

/-- Decoding of a single field token inside `parseRow` (src/parser.ts
lines 57–61): strip one surrounding quote pair, then `parseValue`. -/
def decodeToken (v : List Char) : Value := parseValue (stripQuotes v)

/-- The field token `getRowValuesFromHeaders` contributes for one present
value under delimiter `,`. -/
def encodeValueToken (v : Value) : List Char :=
  match v with
  | .null => "null".data
  | v =>
    if listContains (valueToString v) [','] then '"' :: (valueToString v ++ ['"'])
    else valueToString v

/-- A token the tokenizing regexp recognises as a single unquoted field:
nonempty, no `"`/`,`/whitespace. -/
def okUnquoted (t : List Char) : Prop := t ≠ [] ∧ ∀ c ∈ t, isUnq c = true

instance (t : List Char) : Decidable (okUnquoted t) := by
  unfold okUnquoted
  infer_instance

/-- A token the tokenizing regexp recognises as a single quoted field:
quote-delimited content without `"` or line terminators. -/
def okQuoted (t : List Char) : Prop :=
  ∃ a, t = '"' :: (a ++ ['"']) ∧ ∀ c ∈ a, c ≠ '"' ∧ isLineTerm c = false

/-- A well-formed field token. -/
def okToken (t : List Char) : Prop := okUnquoted t ∨ okQuoted t

/-- String values that survive the decode side of the round trip: ASCII
(so the ASCII model of `toLowerCase` is exact on them), nonempty, already
lower-case and trimmed, distinct from the reserved literals, not numeric,
without `"` or line terminators, and without whitespace unless the token
gets quoted (i.e. contains the delimiter `,`). -/
def okString (s : List Char) : Prop :=
  s ≠ [] ∧ jsToLower s = s ∧ jsTrim s = s ∧
  s ≠ "null".data ∧ s ≠ "true".data ∧ s ≠ "false".data ∧
  jsStrToNum s = none ∧
  (∀ c ∈ s, c ≠ '"' ∧ isLineTerm c = false) ∧
  (listContains s [','] = false → ∀ c ∈ s, isWs c = false) ∧
  (∀ c ∈ s, c.toNat ≤ 127)

instance (s : List Char) : Decidable (okString s) := by
  unfold okString
  infer_instance

/-- Values for which the amended round-trip claim holds: null, booleans,
integer-valued numbers, and `okString` strings. -/
def okValue : Value → Prop
  | .null => True
  | .bool _ => True
  | .num j => ∃ n : ℤ, j = .fin (n : ℚ)
  | .str s => okString s

/-- The age field of a row as a rational (0 when absent or non-numeric). -/
def ageOf (r : Row) : ℚ :=
  match rowLookup r "age".data with
  | some (.num (.fin q)) => q
  | _ => 0

/-- Exact rational difference, spelled with `mkRat` so it reduces in the
kernel (`Rat.sub` is irreducible). -/
def ratSub (a b : ℚ) : ℚ := mkRat (a.num * b.den - b.num * a.den) (a.den * b.den)

/-- Ascending comparator on the age field. -/
def cmpAge (a b : Row) : ℚ := ratSub (ageOf a) (ageOf b)

/-- The concrete value assignment used as the round-trip witness. -/
def fC1 : List Char → Value :=
  fun h => if h = "id".data then .num (.fin 7) else .str "jane".data

/-- ASCII upper-case letter test. -/
def isUpperChar (c : Char) : Bool := 65 ≤ c.toNat && c.toNat ≤ 90

/-!
## Character-level helper lemmas
-/

theorem char_toNat_inj {a b : Char} (h : a.toNat = b.toNat) : a = b :=
  Char.ext (UInt32.ext h)

theorem beq_false_of_toNat_ne {a b : Char} (h : a.toNat ≠ b.toNat) : (a == b) = false := by
  apply beq_eq_false_iff_ne.mpr
  intro hh
  exact h (by rw [hh])

theorem isWs_eq_false_of_range {c : Char} (h : 33 ≤ c.toNat ∧ c.toNat ≤ 126) :
    isWs c = false := by
  have h1 : (' ').toNat = 32 := rfl
  have h2 : ('\t').toNat = 9 := rfl
  have h3 : ('\n').toNat = 10 := rfl
  have h4 : ('\r').toNat = 13 := rfl
  have h5 : ('\x0b').toNat = 11 := rfl
  have h6 : ('\x0c').toNat = 12 := rfl
  have h7 : ('\u00A0').toNat = 0xA0 := rfl
  have h8 : ('\u1680').toNat = 0x1680 := rfl
  have h9 : ('\u2028').toNat = 0x2028 := rfl
  have h10 : ('\u2029').toNat = 0x2029 := rfl
  have h11 : ('\u202F').toNat = 0x202F := rfl
  have h12 : ('\u205F').toNat = 0x205F := rfl
  have h13 : ('\u3000').toNat = 0x3000 := rfl
  have h14 : ('\uFEFF').toNat = 0xFEFF := rfl
  have hlo : (decide (0x2000 ≤ c.toNat)) = false := decide_eq_false (by omega)
  unfold isWs
  rw [beq_false_of_toNat_ne (by omega), beq_false_of_toNat_ne (by omega),
    beq_false_of_toNat_ne (by omega), beq_false_of_toNat_ne (by omega),
    beq_false_of_toNat_ne (by omega), beq_false_of_toNat_ne (by omega),
    beq_false_of_toNat_ne (by omega), beq_false_of_toNat_ne (by omega),
    beq_false_of_toNat_ne (by omega), beq_false_of_toNat_ne (by omega),
    beq_false_of_toNat_ne (by omega), beq_false_of_toNat_ne (by omega),
    beq_false_of_toNat_ne (by omega), beq_false_of_toNat_ne (by omega), hlo]
  rfl

theorem isLineTerm_eq_false_of_range {c : Char} (h : 33 ≤ c.toNat ∧ c.toNat ≤ 8000) :
    isLineTerm c = false := by
  have h1 : ('\n').toNat = 10 := rfl
  have h2 : ('\r').toNat = 13 := rfl
  have h3 : (' ').toNat = 8232 := rfl
  have h4 : (' ').toNat = 8233 := rfl
  unfold isLineTerm
  rw [beq_false_of_toNat_ne (by omega), beq_false_of_toNat_ne (by omega),
    beq_false_of_toNat_ne (by omega), beq_false_of_toNat_ne (by omega)]
  rfl

theorem isUnq_eq_true_of_range {c : Char}
    (h : 33 ≤ c.toNat ∧ c.toNat ≤ 126 ∧ c.toNat ≠ 34 ∧ c.toNat ≠ 44) :
    isUnq c = true := by
  have h1 : ('"').toNat = 34 := rfl
  have h2 : (',').toNat = 44 := rfl
  unfold isUnq
  rw [beq_false_of_toNat_ne (by omega), beq_false_of_toNat_ne (by omega),
    isWs_eq_false_of_range ⟨h.1, h.2.1⟩]
  rfl

theorem isDigitB_iff {c : Char} : isDigitB c = true ↔ 48 ≤ c.toNat ∧ c.toNat ≤ 57 := by
  simp only [isDigitB, Bool.and_eq_true, decide_eq_true_eq]
  exact Iff.rfl

theorem toNat_ofNat_valid {n : Nat} (h : n.isValidChar) : (Char.ofNat n).toNat = n := by
  rw [Char.ofNat, dif_pos h]
  rfl

theorem toLowerChar_of_not_upper {c : Char} (h : c.toNat < 65 ∨ 90 < c.toNat) :
    toLowerChar c = c := by
  unfold toLowerChar
  rw [if_neg]
  omega

theorem toNat_toLowerChar_upper {c : Char} (h : 65 ≤ c.toNat ∧ c.toNat ≤ 90) :
    (toLowerChar c).toNat = c.toNat + 32 := by
  unfold toLowerChar
  rw [if_pos h]
  exact toNat_ofNat_valid (Or.inl (by omega))

theorem toLowerChar_not_upper (c : Char) :
    (toLowerChar c).toNat < 65 ∨ 90 < (toLowerChar c).toNat := by
  by_cases h : 65 ≤ c.toNat ∧ c.toNat ≤ 90
  · rw [toNat_toLowerChar_upper h]
    omega
  · rw [toLowerChar, if_neg h]
    omega

theorem toLowerChar_idem (c : Char) : toLowerChar (toLowerChar c) = toLowerChar c :=
  toLowerChar_of_not_upper (toLowerChar_not_upper c)

theorem jsToLower_idem (s : List Char) : jsToLower (jsToLower s) = jsToLower s := by
  unfold jsToLower
  rw [List.map_map]
  apply List.map_congr_left
  intro a _
  exact toLowerChar_idem a

/-!
## Trim and dropWhile helper lemmas
-/

theorem dropWhile_eq_self_of_all {p : Char → Bool} {l : List Char}
    (h : ∀ c ∈ l, p c = false) : l.dropWhile p = l := by
  cases l with
  | nil => rfl
  | cons a l' =>
    rw [List.dropWhile_cons, h a (by simp)]
    simp

theorem jsTrim_eq_self_of_all {l : List Char} (h : ∀ c ∈ l, isWs c = false) :
    jsTrim l = l := by
  unfold jsTrim
  rw [dropWhile_eq_self_of_all h,
    dropWhile_eq_self_of_all (fun c hc => h c (List.mem_reverse.mp hc)),
    List.reverse_reverse]

theorem mem_dropWhile_of_not {p : Char → Bool} {c : Char} {l : List Char}
    (hc : c ∈ l) (hw : p c = false) : c ∈ l.dropWhile p := by
  induction l with
  | nil => cases hc
  | cons a l' ih =>
    rw [List.dropWhile_cons]
    by_cases pa : p a = true
    · rw [if_pos pa]
      rcases List.mem_cons.mp hc with rfl | hmem
      · rw [pa] at hw; cases hw
      · exact ih hmem
    · rw [if_neg pa]
      exact hc

theorem mem_jsTrim_of_not_ws {c : Char} {l : List Char} (hc : c ∈ l)
    (hw : isWs c = false) : c ∈ jsTrim l := by
  unfold jsTrim
  rw [List.mem_reverse]
  exact mem_dropWhile_of_not (List.mem_reverse.mpr (mem_dropWhile_of_not hc hw)) hw

/-!
## Decimal digit strings
-/

theorem digitsToNat_append (l : List Char) (c : Char) :
    digitsToNat (l ++ [c]) = digitsToNat l * 10 + digitVal c := by
  simp [digitsToNat, List.foldl_append]

theorem toNat_digitChar {d : Nat} (h : d < 10) : (digitChar d).toNat = 48 + d := by
  unfold digitChar
  exact toNat_ofNat_valid (Or.inl (by omega))

theorem isDigitB_digitChar {d : Nat} (h : d < 10) : isDigitB (digitChar d) = true := by
  rw [isDigitB_iff, toNat_digitChar h]
  omega

theorem digitVal_digitChar {d : Nat} (h : d < 10) : digitVal (digitChar d) = d := by
  unfold digitVal
  rw [toNat_digitChar h]
  omega

theorem natToCharsAux_congr : ∀ f1 f2 n, n < f1 → n < f2 →
    natToCharsAux f1 n = natToCharsAux f2 n := by
  intro f1
  induction f1 with
  | zero => intro f2 n h1; omega
  | succ g ih =>
    intro f2 n h1 h2
    cases f2 with
    | zero => omega
    | succ g2 =>
      show natToCharsAux (g + 1) n = natToCharsAux (g2 + 1) n
      unfold natToCharsAux
      by_cases hn : n < 10
      · rw [if_pos hn, if_pos hn]
      · rw [if_neg hn, if_neg hn]
        have hd : n / 10 < n := Nat.div_lt_self (by omega) (by omega)
        rw [ih g2 (n / 10) (by omega) (by omega)]

theorem natToChars_small {n : Nat} (h : n < 10) : natToChars n = [digitChar n] := by
  unfold natToChars natToCharsAux
  rw [if_pos h]

theorem natToChars_step {n : Nat} (h : 10 ≤ n) :
    natToChars n = natToChars (n / 10) ++ [digitChar (n % 10)] := by
  have hd : n / 10 < n := Nat.div_lt_self (by omega) (by omega)
  show natToCharsAux (n + 1) n = _
  unfold natToCharsAux
  rw [if_neg (by omega)]
  unfold natToChars
  rw [natToCharsAux_congr n (n / 10 + 1) (n / 10) (by omega) (by omega)]

theorem natToChars_ne_nil (n : Nat) : natToChars n ≠ [] := by
  by_cases h : n < 10
  · rw [natToChars_small h]
    simp
  · rw [natToChars_step (by omega)]
    simp

theorem natToChars_all_digits (n : Nat) : ∀ c ∈ natToChars n, isDigitB c = true := by
  induction n using Nat.strong_induction_on with
  | _ n ih =>
    by_cases h : n < 10
    · rw [natToChars_small h]
      intro c hc
      rw [List.mem_singleton.mp hc]
      exact isDigitB_digitChar h
    · rw [natToChars_step (by omega)]
      intro c hc
      rcases List.mem_append.mp hc with hm | hm
      · exact ih (n / 10) (Nat.div_lt_self (by omega) (by omega)) c hm
      · rw [List.mem_singleton.mp hm]
        exact isDigitB_digitChar (Nat.mod_lt _ (by omega))

theorem digitsToNat_natToChars (n : Nat) : digitsToNat (natToChars n) = n := by
  induction n using Nat.strong_induction_on with
  | _ n ih =>
    by_cases h : n < 10
    · rw [natToChars_small h]
      show 0 * 10 + digitVal (digitChar n) = n
      rw [digitVal_digitChar h]
      omega
    · rw [natToChars_step (by omega), digitsToNat_append,
        ih (n / 10) (Nat.div_lt_self (by omega) (by omega)),
        digitVal_digitChar (Nat.mod_lt _ (by omega))]
      omega

/-!
## Parsing the decimal representation of an integer
-/

theorem ne_char_of_toNat {a b : Char} (h : a.toNat ≠ b.toNat) : a ≠ b :=
  fun hh => h (hh ▸ rfl)

theorem takeWhile_eq_self_of_all {p : Char → Bool} : ∀ {l : List Char},
    (∀ c ∈ l, p c = true) → l.takeWhile p = l := by
  intro l
  induction l with
  | nil => intro _; rfl
  | cons a l' ih =>
    intro h
    simp [List.takeWhile_cons, h a (by simp), ih (fun c hc => h c (by simp [hc]))]

theorem dropWhile_eq_nil_of_all {p : Char → Bool} : ∀ {l : List Char},
    (∀ c ∈ l, p c = true) → l.dropWhile p = [] := by
  intro l
  induction l with
  | nil => intro _; rfl
  | cons a l' ih =>
    intro h
    simp [List.dropWhile_cons, h a (by simp), ih (fun c hc => h c (by simp [hc]))]

theorem signedNum_cons (c : Char) (r : List Char) :
    signedNum (c :: r) = if c = '+' then unsignedNum r
      else if c = '-' then (unsignedNum r).map negNum
      else unsignedNum (c :: r) := rfl

theorem jsStrToNumCore_cons2 (a x : Char) (rest : List Char) :
    jsStrToNumCore (a :: x :: rest) =
      if a = '0' ∧ (x = 'x' ∨ x = 'X') then (radixVal 16 rest).map (fun (n : Nat) => JSNum.fin (n : ℚ))
      else if a = '0' ∧ (x = 'o' ∨ x = 'O') then (radixVal 8 rest).map (fun (n : Nat) => JSNum.fin (n : ℚ))
      else if a = '0' ∧ (x = 'b' ∨ x = 'B') then (radixVal 2 rest).map (fun (n : Nat) => JSNum.fin (n : ℚ))
      else signedNum (a :: x :: rest) := by
  unfold jsStrToNumCore
  rfl

theorem jsStrToNumCore_single (a : Char) : jsStrToNumCore [a] = signedNum [a] := by
  unfold jsStrToNumCore
  rfl

theorem jsStrToNum_eq_core {s : List Char} (htrim : jsTrim s = s) (hne : s ≠ []) :
    jsStrToNum s = jsStrToNumCore s := by
  unfold jsStrToNum
  simp only [htrim]
  rw [if_neg hne]

theorem mkDec_digits (t : List Char) : mkDec t [] 0 = (digitsToNat t : ℚ) := by
  unfold mkDec
  simp [digitsToNat]

theorem unsignedNum_digits {t : List Char} (h : ∀ c ∈ t, isDigitB c = true)
    (hne : t ≠ []) : unsignedNum t = some (.fin (digitsToNat t : ℚ)) := by
  have hinf : t ≠ "Infinity".data := by
    intro heq
    have hI : 'I' ∈ t := by rw [heq]; decide
    have := h 'I' hI
    rw [show isDigitB 'I' = false by decide] at this
    cases this
  unfold unsignedNum
  rw [if_neg hinf]
  unfold parseDecimal
  simp only [takeWhile_eq_self_of_all h, dropWhile_eq_nil_of_all h]
  rw [if_neg hne]
  show Option.map JSNum.fin (Option.map (fun e => mkDec t [] e) (some (0 : ℤ))) =
    some (.fin (digitsToNat t : ℚ))
  show some (JSNum.fin (mkDec t [] 0)) = some (.fin (digitsToNat t : ℚ))
  rw [mkDec_digits]

theorem signedNum_digits {t : List Char} (h : ∀ c ∈ t, isDigitB c = true)
    (hne : t ≠ []) : signedNum t = some (.fin (digitsToNat t : ℚ)) := by
  rcases t with _ | ⟨c, r⟩
  · cases hne rfl
  · have hc := isDigitB_iff.mp (h c (by simp))
    have hplus : ('+').toNat = 43 := rfl
    have hminus : ('-').toNat = 45 := rfl
    rw [signedNum_cons,
      if_neg (show c ≠ '+' from ne_char_of_toNat (by omega)),
      if_neg (show c ≠ '-' from ne_char_of_toNat (by omega))]
    exact unsignedNum_digits h hne

theorem jsTrim_digits {t : List Char} (h : ∀ c ∈ t, isDigitB c = true) :
    jsTrim t = t :=
  jsTrim_eq_self_of_all fun c hc =>
    isWs_eq_false_of_range (by have := isDigitB_iff.mp (h c hc); omega)

theorem jsStrToNum_digits {t : List Char} (h : ∀ c ∈ t, isDigitB c = true)
    (hne : t ≠ []) : jsStrToNum t = some (.fin (digitsToNat t : ℚ)) := by
  rw [jsStrToNum_eq_core (jsTrim_digits h) hne]
  rcases t with _ | ⟨a, _ | ⟨x, rest⟩⟩
  · cases hne rfl
  · rw [jsStrToNumCore_single]
    exact signedNum_digits h hne
  · have hx := isDigitB_iff.mp (h x (by simp))
    have e1 : ('x').toNat = 120 := rfl
    have e2 : ('X').toNat = 88 := rfl
    have e3 : ('o').toNat = 111 := rfl
    have e4 : ('O').toNat = 79 := rfl
    have e5 : ('b').toNat = 98 := rfl
    have e6 : ('B').toNat = 66 := rfl
    rw [jsStrToNumCore_cons2, if_neg, if_neg, if_neg]
    · exact signedNum_digits h hne
    all_goals
      rintro ⟨-, hx2 | hx2⟩ <;> (rw [hx2] at hx; omega)

theorem jsStrToNum_neg_digits {t : List Char} (h : ∀ c ∈ t, isDigitB c = true)
    (hne : t ≠ []) : jsStrToNum ('-' :: t) = some (.fin (-(digitsToNat t : ℚ))) := by
  have hminus : ('-').toNat = 45 := rfl
  have hall : ∀ c ∈ '-' :: t, isWs c = false := by
    intro c hc
    rcases List.mem_cons.mp hc with rfl | hm
    · exact isWs_eq_false_of_range (by omega)
    · exact isWs_eq_false_of_range (by have := isDigitB_iff.mp (h c hm); omega)
  rw [jsStrToNum_eq_core (jsTrim_eq_self_of_all hall) (by simp)]
  rcases t with _ | ⟨x, rest⟩
  · cases hne rfl
  · have h0 : ('0').toNat = 48 := rfl
    rw [jsStrToNumCore_cons2,
      if_neg (fun hh => absurd hh.1 (ne_char_of_toNat (by omega))),
      if_neg (fun hh => absurd hh.1 (ne_char_of_toNat (by omega))),
      if_neg (fun hh => absurd hh.1 (ne_char_of_toNat (by omega)))]
    have hplus : ('+').toNat = 43 := rfl
    rw [signedNum_cons,
      if_neg (show ('-') ≠ '+' from ne_char_of_toNat (by omega)), if_pos rfl,
      unsignedNum_digits h hne]
    rfl

theorem jsStrToNum_intToChars (n : ℤ) : jsStrToNum (intToChars n) = some (.fin (n : ℚ)) := by
  unfold intToChars
  by_cases hn : n < 0
  · rw [if_pos hn, jsStrToNum_neg_digits (natToChars_all_digits _) (natToChars_ne_nil _),
      digitsToNat_natToChars]
    have h2 : (n.natAbs : ℤ) = -n := by omega
    congr 2
    rw [show ((n.natAbs : ℚ)) = (((n.natAbs : ℤ)) : ℚ) from (Int.cast_natCast _).symm, h2]
    push_cast
    ring
  · rw [if_neg hn, jsStrToNum_digits (natToChars_all_digits _) (natToChars_ne_nil _),
      digitsToNat_natToChars]
    have h2 : (n.toNat : ℤ) = n := by omega
    congr 2
    rw [show ((n.toNat : ℚ)) = (((n.toNat : ℤ)) : ℚ) from (Int.cast_natCast _).symm, h2]

/-!
## Behaviour of the tokenizer on well-formed joined tokens
-/

theorem lookaheadOk_comma (r : List Char) : lookaheadOk (',' :: r) = true := by
  simp [lookaheadOk, List.dropWhile_cons, show isWs ',' = false from rfl]

theorem quotedScan_lt {l : List Char} : ∀ {acc tok rest : List Char},
    quotedScan acc l = some (tok, rest) → rest.length < l.length := by
  induction l with
  | nil =>
    intro acc tok rest h
    simp [quotedScan] at h
  | cons c cs ih =>
    intro acc tok rest h
    simp only [quotedScan] at h
    split_ifs at h with h1 h2 h3
    · injection h with h4
      have hr : rest = cs := (congrArg Prod.snd h4).symm
      subst hr
      simp
    · have := ih h
      simp only [List.length_cons]
      omega
    · have := ih h
      simp only [List.length_cons]
      omega

theorem quotedScan_run (a : List Char) (h : ∀ c ∈ a, c ≠ '"' ∧ isLineTerm c = false)
    {rest : List Char} (hla : lookaheadOk rest = true) :
    ∀ acc, quotedScan acc (a ++ '"' :: rest) = some (acc ++ a ++ ['"'], rest) := by
  induction a with
  | nil =>
    intro acc
    show quotedScan acc ('"' :: rest) = _
    simp only [quotedScan]
    simp [hla]
  | cons c a' ih =>
    intro acc
    obtain ⟨hq, hlt⟩ := h c (by simp)
    show quotedScan acc (c :: (a' ++ '"' :: rest)) = _
    simp only [quotedScan]
    rw [if_neg hq, if_neg (by simp [hlt]),
      ih (fun x hx => h x (by simp [hx])) (acc ++ [c])]
    simp

theorem unqBack_some {rr rest : List Char} (hne : rr ≠ [])
    (hla : lookaheadOk rest = true) : unqBack rr rest = some (rr.reverse, rest) := by
  rcases rr with _ | ⟨c, rs⟩
  · cases hne rfl
  · simp only [unqBack]
    rw [if_pos hla]

theorem unqBack_spec {rr : List Char} : ∀ {rest tok rest' : List Char},
    unqBack rr rest = some (tok, rest') →
    tok ≠ [] ∧ tok.length + rest'.length = rr.length + rest.length := by
  induction rr with
  | nil => intro rest tok rest' h; simp [unqBack] at h
  | cons c rs ih =>
    intro rest tok rest' h
    simp only [unqBack] at h
    split_ifs at h with h1
    · injection h with h2
      have htok : tok = (c :: rs).reverse := (congrArg Prod.fst h2).symm
      have hrest : rest' = rest := (congrArg Prod.snd h2).symm
      subst htok
      subst hrest
      constructor
      · simp
      · simp
    · obtain ⟨hne, hlen⟩ := ih h
      refine ⟨hne, ?_⟩
      simp only [List.length_cons] at hlen ⊢
      omega

theorem matchUnquoted_spec {l tok rest : List Char}
    (h : matchUnquoted l = some (tok, rest)) :
    tok ≠ [] ∧ tok.length + rest.length = l.length := by
  unfold matchUnquoted at h
  obtain ⟨hne, hlen⟩ := unqBack_spec h
  refine ⟨hne, ?_⟩
  have := congrArg List.length (List.takeWhile_append_dropWhile (p := isUnq) (l := l))
  simp only [List.length_append] at this
  simp only [List.length_reverse] at hlen
  omega

theorem matchQuoted_some_lt {l tok rest : List Char}
    (h : matchQuoted l = some (tok, rest)) : rest.length < l.length := by
  rcases l with _ | ⟨c, cs⟩
  · simp [matchQuoted] at h
  · simp only [matchQuoted] at h
    split_ifs at h with h1
    have := quotedScan_lt h
    simp only [List.length_cons]
    omega

theorem matchAt_some_lt {l tok rest : List Char}
    (h : matchAt l = some (tok, rest)) : rest.length < l.length := by
  unfold matchAt at h
  cases hq : matchQuoted l with
  | some pr =>
    rw [hq] at h
    have hpr : pr = (tok, rest) := Option.some.inj h
    subst hpr
    exact matchQuoted_some_lt hq
  | none =>
    rw [hq] at h
    obtain ⟨hne, hlen⟩ := matchUnquoted_spec h
    have := List.length_pos.mpr hne
    omega

theorem matchAt_nil : matchAt [] = none := rfl

theorem regexScanAux_nil : ∀ f, regexScanAux f [] = [] := by
  intro f
  cases f <;> rfl

theorem regexScanAux_congr : ∀ (n : Nat) (l : List Char), l.length ≤ n →
    ∀ f1 f2, l.length ≤ f1 → l.length ≤ f2 →
    regexScanAux f1 l = regexScanAux f2 l := by
  intro n
  induction n with
  | zero =>
    intro l hl f1 f2 _ _
    have : l = [] := List.length_eq_zero.mp (by omega)
    subst this
    rw [regexScanAux_nil, regexScanAux_nil]
  | succ m ih =>
    intro l hl f1 f2 h1 h2
    rcases l with _ | ⟨c, cs⟩
    · rw [regexScanAux_nil, regexScanAux_nil]
    · simp only [List.length_cons] at hl h1 h2
      rcases f1 with _ | g1
      · omega
      rcases f2 with _ | g2
      · omega
      show regexScanAux (g1 + 1) (c :: cs) = regexScanAux (g2 + 1) (c :: cs)
      simp only [regexScanAux]
      cases hm : matchAt (c :: cs) with
      | some pr =>
        rcases pr with ⟨tok, rest⟩
        have hlt := matchAt_some_lt hm
        simp only [List.length_cons] at hlt
        show tok :: regexScanAux g1 rest = tok :: regexScanAux g2 rest
        rw [ih rest (by omega) g1 g2 (by omega) (by omega)]
      | none =>
        show regexScanAux g1 cs = regexScanAux g2 cs
        exact ih cs (by omega) g1 g2 (by omega) (by omega)

theorem regexScan_nil : regexScan [] = [] := rfl

theorem regexScan_match {l tok rest : List Char} (h : matchAt l = some (tok, rest)) :
    regexScan l = tok :: regexScan rest := by
  rcases l with _ | ⟨c, cs⟩
  · rw [matchAt_nil] at h; cases h
  · show regexScanAux (cs.length + 1) (c :: cs) = tok :: regexScan rest
    simp only [regexScanAux]
    rw [h]
    show tok :: regexScanAux cs.length rest = tok :: regexScan rest
    have hlt := matchAt_some_lt h
    simp only [List.length_cons] at hlt
    rw [regexScanAux_congr rest.length rest le_rfl cs.length rest.length (by omega) le_rfl]
    rfl

theorem regexScan_skip {c : Char} {cs : List Char} (h : matchAt (c :: cs) = none) :
    regexScan (c :: cs) = regexScan cs := by
  show regexScanAux (cs.length + 1) (c :: cs) = _
  simp only [regexScanAux]
  rw [h]
  rfl

theorem takeWhile_append_of_all {p : Char → Bool} : ∀ (t rest : List Char),
    (∀ c ∈ t, p c = true) →
    (rest = [] ∨ ∃ r rs, rest = r :: rs ∧ p r = false) →
    (t ++ rest).takeWhile p = t ∧ (t ++ rest).dropWhile p = rest := by
  intro t
  induction t with
  | nil =>
    intro rest _ hrest
    rcases hrest with rfl | ⟨r, rs, rfl, hr⟩
    · exact ⟨rfl, rfl⟩
    · constructor
      · simp [List.takeWhile_cons, hr]
      · simp [List.dropWhile_cons, hr]
  | cons c t' ih =>
    intro rest hall hrest
    obtain ⟨ht, hd⟩ := ih rest (fun x hx => hall x (by simp [hx])) hrest
    constructor
    · show ((c :: (t' ++ rest)).takeWhile p) = c :: t'
      rw [List.takeWhile_cons, hall c (by simp)]
      simp [ht]
    · show ((c :: (t' ++ rest)).dropWhile p) = rest
      rw [List.dropWhile_cons, hall c (by simp)]
      simp [hd]

theorem isUnq_ne_quote {c : Char} (h : isUnq c = true) : c ≠ '"' := by
  intro heq
  rw [heq] at h
  cases h

theorem matchAt_token {t rest : List Char} (ht : okToken t)
    (hrest : rest = [] ∨ ∃ r, rest = ',' :: r) : matchAt (t ++ rest) = some (t, rest) := by
  have hla : lookaheadOk rest = true := by
    rcases hrest with rfl | ⟨r, rfl⟩
    · rfl
    · exact lookaheadOk_comma r
  have hrest' : rest = [] ∨ ∃ r rs, rest = r :: rs ∧ isUnq r = false := by
    rcases hrest with rfl | ⟨r, rfl⟩
    · exact Or.inl rfl
    · exact Or.inr ⟨',', r, rfl, rfl⟩
  rcases ht with ⟨hne, hall⟩ | ⟨a, rfl, hq⟩
  · rcases t with _ | ⟨c, t'⟩
    · cases hne rfl
    have hcq : c ≠ '"' := isUnq_ne_quote (hall c (by simp))
    unfold matchAt
    have hmq : matchQuoted ((c :: t') ++ rest) = none := by
      show matchQuoted (c :: (t' ++ rest)) = none
      simp only [matchQuoted]
      rw [if_neg hcq]
    rw [hmq]
    show matchUnquoted ((c :: t') ++ rest) = _
    unfold matchUnquoted
    obtain ⟨htw, hdw⟩ := takeWhile_append_of_all (c :: t') rest hall hrest'
    rw [htw, hdw, unqBack_some (by simp) hla]
    simp
  · unfold matchAt
    have hmq : matchQuoted (('"' :: (a ++ ['"'])) ++ rest) =
        some ('"' :: (a ++ ['"']), rest) := by
      show matchQuoted ('"' :: ((a ++ ['"']) ++ rest)) = _
      simp only [matchQuoted]
      rw [if_pos trivial, show (a ++ ['"']) ++ rest = a ++ '"' :: rest by simp,
        quotedScan_run a hq hla ['"']]
      simp
    rw [hmq]
    rfl

theorem matchAt_comma (r : List Char) : matchAt (',' :: r) = none := by
  unfold matchAt
  have h1 : matchQuoted (',' :: r) = none := by
    simp only [matchQuoted]
    rw [if_neg (by decide)]
  have h2 : matchUnquoted (',' :: r) = none := by
    unfold matchUnquoted
    rw [List.takeWhile_cons, List.dropWhile_cons]
    simp [show isUnq ',' = false from rfl, unqBack]
  rw [h1, h2]
  rfl

theorem regexScan_joinComma : ∀ ts : List (List Char), ts ≠ [] →
    (∀ t ∈ ts, okToken t) → regexScan (joinChunks [','] ts) = ts := by
  intro ts
  induction ts with
  | nil => intro h; cases h rfl
  | cons t ts' ih =>
    intro _ hall
    rcases ts' with _ | ⟨t2, ts''⟩
    · show regexScan t = [t]
      have hm : matchAt (t ++ []) = some (t, []) :=
        matchAt_token (hall t (by simp)) (Or.inl rfl)
      rw [List.append_nil] at hm
      rw [regexScan_match hm, regexScan_nil]
    · show regexScan (t ++ [','] ++ joinChunks [','] (t2 :: ts'')) = _
      rw [show t ++ [','] ++ joinChunks [','] (t2 :: ts'') =
        t ++ (',' :: joinChunks [','] (t2 :: ts'')) by simp]
      have hm := matchAt_token (hall t (by simp))
        (Or.inr ⟨joinChunks [','] (t2 :: ts''), rfl⟩)
      rw [regexScan_match hm, regexScan_skip (matchAt_comma _),
        ih (by simp) (fun x hx => hall x (by simp [hx]))]

/-!
## Row construction lemmas
-/

theorem parseRowLoop_short : ∀ (hs vs : List (List Char)) (row : Row),
    vs.length < hs.length → parseRowLoop row hs vs = none := by
  intro hs
  induction hs with
  | nil => intro vs row h; simp at h
  | cons h0 hs' ih =>
    intro vs row hlen
    rcases vs with _ | ⟨v, vs'⟩
    · rfl
    · show parseRowLoop (objSet row h0 (parseValue (stripQuotes v))) hs' vs' = none
      simp only [List.length_cons] at hlen
      exact ih vs' _ (by omega)

theorem parseRowLoop_take : ∀ (hs vs : List (List Char)) (row : Row),
    hs.length ≤ vs.length →
    parseRowLoop row hs vs = parseRowLoop row hs (vs.take hs.length) ∧
    (parseRowLoop row hs vs).isSome = true := by
  intro hs
  induction hs with
  | nil => intro vs row _; exact ⟨rfl, rfl⟩
  | cons h0 hs' ih =>
    intro vs row hlen
    rcases vs with _ | ⟨v, vs'⟩
    · simp at hlen
    · simp only [List.length_cons] at hlen
      have hih := ih vs' (objSet row h0 (parseValue (stripQuotes v))) (by omega)
      refine ⟨?_, hih.2⟩
      show parseRowLoop (objSet row h0 (parseValue (stripQuotes v))) hs' vs' =
        parseRowLoop row (h0 :: hs') ((v :: vs').take (h0 :: hs').length)
      rw [show (v :: vs').take (h0 :: hs').length = v :: vs'.take hs'.length from rfl]
      exact hih.1

theorem objSet_append {r : Row} {k : List Char} {v : Value} (h : k ∉ rowKeys r) :
    objSet r k v = r ++ [(k, v)] := by
  induction r with
  | nil => rfl
  | cons p rest ih =>
    rcases p with ⟨k', v'⟩
    simp only [rowKeys, List.map_cons, List.mem_cons, not_or] at h
    show (if k' = k then _ else _) = _
    rw [if_neg (fun hh => h.1 hh.symm), ih h.2]
    rfl

theorem parseRowLoop_zip : ∀ (hs ts : List (List Char)) (row : Row),
    hs.length = ts.length → hs.Nodup → (∀ h ∈ hs, h ∉ rowKeys row) →
    parseRowLoop row hs ts =
      some (row ++ hs.zip (ts.map (fun t => parseValue (stripQuotes t)))) := by
  intro hs
  induction hs with
  | nil =>
    intro ts row hlen _ _
    have : ts = [] := List.length_eq_zero.mp hlen.symm
    subst this
    show some row = some (row ++ [])
    rw [List.append_nil]
  | cons h0 hs' ih =>
    intro ts row hlen hnd hkeys
    rcases ts with _ | ⟨t, ts'⟩
    · simp at hlen
    · obtain ⟨hnotin, hnd'⟩ := List.nodup_cons.mp hnd
      show parseRowLoop (objSet row h0 (parseValue (stripQuotes t))) hs' ts' = _
      rw [objSet_append (hkeys h0 (by simp))]
      rw [ih ts' (row ++ [(h0, parseValue (stripQuotes t))])
        (by simp only [List.length_cons] at hlen; omega) hnd' ?_]
      · simp
      · intro h hmem
        have hne : h ≠ h0 := fun hh => hnotin (hh ▸ hmem)
        have hnk : h ∉ rowKeys row := hkeys h (by simp [hmem])
        show h ∉ rowKeys (row ++ [(h0, parseValue (stripQuotes t))])
        unfold rowKeys at hnk ⊢
        rw [List.map_append]
        intro hmem'
        rcases List.mem_append.mp hmem' with hic | hic
        · exact hnk hic
        · simp only [List.map_cons, List.map_nil, List.mem_singleton] at hic
          exact hne hic

theorem rowLookup_mkEntry {hs : List (List Char)} {f : List Char → Value}
    {h : List Char} (hnd : hs.Nodup) (hmem : h ∈ hs) :
    rowLookup (mkEntry hs f) h = some (f h) := by
  induction hs with
  | nil => cases hmem
  | cons h0 hs' ih =>
    obtain ⟨hnotin, hnd'⟩ := List.nodup_cons.mp hnd
    show (if h0 = h then some (f h0) else rowLookup (mkEntry hs' f) h) = some (f h)
    by_cases he : h0 = h
    · rw [if_pos he, he]
    · rw [if_neg he]
      rcases List.mem_cons.mp hmem with rfl | hmem'
      · cases he rfl
      · exact ih hnd' hmem'

theorem parseRowObj_eq {line : List Char} {headers : List (List Char)}
    (hne : headers ≠ []) :
    parseRowObj line headers =
      (match regexScan line with
        | [] => none
        | p :: ps => parseRowLoop [] headers (p :: ps)) := by
  unfold parseRowObj parseRow
  cases hscan : regexScan line with
  | nil => rfl
  | cons p ps =>
    have hl : headers.length > 0 := by
      rcases headers with _ | _
      · cases hne rfl
      · simp
    show (match (if headers.length > 0 then (parseRowLoop [] headers (p :: ps)).map RowResult.obj
        else some (RowResult.arr ((p :: ps).map parseValue))) with
      | some (RowResult.obj r) => some r
      | _ => none) = parseRowLoop [] headers (p :: ps)
    rw [if_pos hl]
    cases hloop : parseRowLoop [] headers (p :: ps) with
    | none => rfl
    | some r => rfl

/-!
## Value tokens: encoding and decoding of individual well-formed values
-/

theorem isUnq_of {c : Char} (h1 : c ≠ '"') (h2 : c ≠ ',') (h3 : isWs c = false) :
    isUnq c = true := by
  unfold isUnq
  rw [beq_eq_false_iff_ne.mpr h1, beq_eq_false_iff_ne.mpr h2, h3]
  rfl

theorem listContains_of_mem {s : List Char} {c : Char} (h : c ∈ s) :
    listContains s [c] = true := by
  induction s with
  | nil => cases h
  | cons a tail ih =>
    unfold listContains
    by_cases hsw : listStartsWith (a :: tail) [c] = true
    · rw [if_pos hsw]
    · rw [if_neg hsw]
      rcases List.mem_cons.mp h with rfl | hm
      · exact absurd (by simp [listStartsWith]) hsw
      · exact ih hm

theorem mem_of_listContains {s : List Char} {c : Char}
    (h : listContains s [c] = true) : c ∈ s := by
  induction s with
  | nil => simp [listContains, listStartsWith] at h
  | cons a tail ih =>
    unfold listContains at h
    by_cases hsw : listStartsWith (a :: tail) [c] = true
    · have : (a == c) = true := by
        have : ((a == c) && listStartsWith tail []) = true := hsw
        simp [listStartsWith] at this
        simp [this]
      exact List.mem_cons.mpr (Or.inl (eq_of_beq this).symm)
    · rw [if_neg hsw] at h
      exact List.mem_cons.mpr (Or.inr (ih h))

theorem jsToLower_eq_self_of {s : List Char}
    (h : ∀ c ∈ s, c.toNat < 65 ∨ 90 < c.toNat) : jsToLower s = s := by
  unfold jsToLower
  have heq : s.map toLowerChar = s.map id :=
    List.map_congr_left (fun c hc => by rw [toLowerChar_of_not_upper (h c hc)]; rfl)
  rw [heq, List.map_id]

theorem stripQuotes_eq_self {v : List Char} (h : ∀ c ∈ v, c ≠ '"') :
    stripQuotes v = v := by
  unfold stripQuotes
  rw [if_neg]
  rintro ⟨h1, h2⟩
  rcases v with _ | ⟨c, r⟩
  · cases h1
  · exact h c (by simp) (Option.some.inj h1)

theorem stripQuotes_quoted (s : List Char) : stripQuotes ('"' :: (s ++ ['"'])) = s := by
  have hlast : ('"' :: (s ++ ['"'])).getLast? = some '"' := by
    rw [show ('"' :: (s ++ ['"'])) = ('"' :: s) ++ ['"'] by simp]
    exact List.getLast?_concat _
  unfold stripQuotes
  rw [if_pos ⟨rfl, hlast⟩, if_neg (by simp)]
  show (s ++ ['"']).dropLast = s
  exact List.dropLast_concat

theorem parseValue_okString {s : List Char} (h : okString s) : parseValue s = .str s := by
  obtain ⟨hne, hlow, htrim, hnull, htrue, hfalse, hnum, hqlt, hws, hascii⟩ := h
  unfold parseValue
  rw [hlow, htrim,
    if_neg (by rintro (hc | hc); exacts [hnull hc, hne hc]),
    if_neg (by rintro (hc | hc); exacts [htrue hc, hfalse hc]),
    hnum]

theorem valueToString_int (n : ℤ) : valueToString (.num (.fin (n : ℚ))) = intToChars n := by
  show finNumToChars ((n : ℚ)) = _
  unfold finNumToChars
  rw [if_pos (Rat.den_intCast n), Rat.num_intCast]

theorem intToChars_range {n : ℤ} : ∀ c ∈ intToChars n, 45 ≤ c.toNat ∧ c.toNat ≤ 57 := by
  unfold intToChars
  split_ifs with hn
  · intro c hc
    rcases List.mem_cons.mp hc with rfl | hm
    · exact ⟨by decide, by decide⟩
    · have := isDigitB_iff.mp (natToChars_all_digits _ c hm)
      omega
  · intro c hc
    have := isDigitB_iff.mp (natToChars_all_digits _ c hc)
    omega

theorem intToChars_ne_nil (n : ℤ) : intToChars n ≠ [] := by
  unfold intToChars
  split_ifs
  · simp
  · exact natToChars_ne_nil _

theorem intToChars_okToken (n : ℤ) : okToken (intToChars n) :=
  Or.inl ⟨intToChars_ne_nil n, fun c hc =>
    isUnq_eq_true_of_range (by have := intToChars_range c hc; omega)⟩

theorem intToChars_ne_lit {n : ℤ} {lit : List Char}
    (hc : ∃ c, c ∈ lit ∧ 58 ≤ c.toNat) : intToChars n ≠ lit := by
  intro heq
  obtain ⟨c, hcl, hcr⟩ := hc
  rw [← heq] at hcl
  have := intToChars_range c hcl
  omega

theorem parseValue_intToChars (n : ℤ) : parseValue (intToChars n) = .num (.fin (n : ℚ)) := by
  have hlow : jsToLower (intToChars n) = intToChars n :=
    jsToLower_eq_self_of (fun c hc => by have := intToChars_range c hc; omega)
  have htrim : jsTrim (intToChars n) = intToChars n :=
    jsTrim_eq_self_of_all (fun c hc =>
      isWs_eq_false_of_range (by have := intToChars_range c hc; omega))
  unfold parseValue
  rw [hlow, htrim,
    if_neg (by
      rintro (hc | hc)
      · exact intToChars_ne_lit ⟨'n', by decide, by decide⟩ hc
      · exact intToChars_ne_nil n hc),
    if_neg (by
      rintro (hc | hc)
      · exact intToChars_ne_lit ⟨'t', by decide, by decide⟩ hc
      · exact intToChars_ne_lit ⟨'f', by decide, by decide⟩ hc),
    jsStrToNum_intToChars n]

theorem decodeToken_int (n : ℤ) : decodeToken (intToChars n) = .num (.fin (n : ℚ)) := by
  unfold decodeToken
  have h34 : ('"').toNat = 34 := rfl
  rw [stripQuotes_eq_self (fun c hc =>
    ne_char_of_toNat (by have := intToChars_range c hc; omega)), parseValue_intToChars]

theorem encodeValueToken_num (n : ℤ) :
    encodeValueToken (.num (.fin (n : ℚ))) = intToChars n := by
  show (if listContains (valueToString (.num (.fin (n : ℚ)))) [','] then _ else _) = _
  rw [valueToString_int]
  rw [if_neg]
  intro hcon
  have hmem := mem_of_listContains hcon
  have := intToChars_range ',' hmem
  have h44 : (',').toNat = 44 := rfl
  omega

theorem encodeValueToken_str (s : List Char) :
    encodeValueToken (.str s) =
      (if listContains s [','] then '"' :: (s ++ ['"']) else s) := rfl

theorem okToken_encode {v : Value} (h : okValue v) : okToken (encodeValueToken v) := by
  rcases v with _ | b | j | s
  · exact Or.inl (by decide)
  · cases b <;> exact Or.inl (by decide)
  · obtain ⟨n, rfl⟩ := h
    rw [encodeValueToken_num n]
    exact intToChars_okToken n
  · obtain ⟨hne, hlow, htrim, hnull, htrue, hfalse, hnum, hqlt, hws, hascii⟩ := h
    rw [encodeValueToken_str]
    by_cases hcon : listContains s [','] = true
    · rw [if_pos hcon]
      exact Or.inr ⟨s, rfl, fun c hc => ⟨(hqlt c hc).1, (hqlt c hc).2⟩⟩
    · rw [if_neg hcon]
      have hcon' : listContains s [','] = false := by
        revert hcon
        cases listContains s [','] <;> simp
      refine Or.inl ⟨hne, fun c hc => ?_⟩
      have hcomma : c ≠ ',' := fun hh => hcon (listContains_of_mem (hh ▸ hc))
      exact isUnq_of (hqlt c hc).1 hcomma (hws hcon' c hc)

theorem decodeToken_encode {v : Value} (h : okValue v) : decodeToken (encodeValueToken v) = v := by
  rcases v with _ | b | j | s
  · decide
  · cases b <;> decide
  · obtain ⟨n, rfl⟩ := h
    rw [encodeValueToken_num n]
    exact decodeToken_int n
  · obtain ⟨hne, hlow, htrim, hnull, htrue, hfalse, hnum, hqlt, hws, hascii⟩ := h
    rw [encodeValueToken_str]
    by_cases hcon : listContains s [','] = true
    · rw [if_pos hcon]
      unfold decodeToken
      rw [stripQuotes_quoted]
      exact parseValue_okString ⟨hne, hlow, htrim, hnull, htrue, hfalse, hnum, hqlt, hws, hascii⟩
    · rw [if_neg hcon]
      unfold decodeToken
      rw [stripQuotes_eq_self (fun c hc => (hqlt c hc).1)]
      exact parseValue_okString ⟨hne, hlow, htrim, hnull, htrue, hfalse, hnum, hqlt, hws, hascii⟩

theorem encodeField_some (entry : Row) (h : List Char) {v : Value}
    (hl : rowLookup entry h = some v) (hv : v ≠ .null) :
    encodeField entry [','] h =
      (if listContains (valueToString v) [','] = true
        then some (.str ('"' :: (valueToString v ++ ['"']))) else some v) := by
  unfold encodeField
  rw [hl]
  rcases v with _ | b | j | s
  · cases hv rfl
  · rfl
  · rfl
  · rfl

theorem encodeValueToken_eq {v : Value} (hv : v ≠ .null) :
    encodeValueToken v =
      (if listContains (valueToString v) [','] = true
        then '"' :: (valueToString v ++ ['"']) else valueToString v) := by
  rcases v with _ | b | j | s
  · cases hv rfl
  all_goals rfl

theorem renderOptValue_encodeField_mkEntry {hs : List (List Char)} {f : List Char → Value}
    {h : List Char} (hnd : hs.Nodup) (hmem : h ∈ hs) :
    renderOptValue (encodeField (mkEntry hs f) [','] h) = encodeValueToken (f h) := by
  have hl : rowLookup (mkEntry hs f) h = some (f h) := rowLookup_mkEntry hnd hmem
  rcases hv : f h with _ | b | j | s <;> rw [hv] at hl
  · unfold encodeField
    rw [hl]
    rfl
  all_goals
    rw [encodeField_some _ _ hl (by simp), encodeValueToken_eq (by simp)]
    split_ifs <;> rfl

theorem encodeRow_mkEntry {hs : List (List Char)} {f : List Char → Value}
    (hnd : hs.Nodup) :
    encodeRow hs (mkEntry hs f) [','] =
      joinChunks [','] (hs.map (fun h => encodeValueToken (f h))) := by
  unfold encodeRow joinVals getRowValuesFromHeaders
  rw [List.map_map]
  congr 1
  exact List.map_congr_left (fun h hmem => renderOptValue_encodeField_mkEntry hnd hmem)

/-!
## No string containing a comma is numeric
-/

theorem radixDigit?_comma (base : Nat) : radixDigit? base ',' = none := by
  unfold radixDigit?
  rw [if_neg (by decide), if_neg (by decide), if_neg (by decide)]

theorem radixVal_none_of_comma {base : Nat} : ∀ {l : List Char},
    ',' ∈ l → radixVal base l = none := by
  intro l
  induction l with
  | nil => intro h; cases h
  | cons c rest ih =>
    intro hm
    show (match radixDigit? base c with
      | none => none
      | some d =>
        if rest = [] then some d
        else (radixVal base rest).map (fun n => d * base ^ rest.length + n)) = none
    rcases List.mem_cons.mp hm with hc | hm'
    · rw [← hc, radixDigit?_comma]
    · cases hdc : radixDigit? base c with
      | none => rfl
      | some d =>
        have hrne : rest ≠ [] := fun hh => by rw [hh] at hm'; cases hm'
        show (if rest = [] then some d
          else (radixVal base rest).map (fun n => d * base ^ rest.length + n)) = none
        rw [if_neg hrne, ih hm']
        rfl

theorem allDigitsVal_none_of_comma {ds : List Char} (h : ',' ∈ ds) :
    allDigitsVal ds = none := by
  unfold allDigitsVal
  rw [if_neg]
  rintro ⟨-, hall⟩
  exact absurd (List.all_eq_true.mp hall ',' h) (by decide)

theorem parseExpPart_none_of_comma : ∀ {l : List Char}, ',' ∈ l →
    parseExpPart l = none := by
  intro l hm
  rcases l with _ | ⟨e, rest⟩
  · cases hm
  · show (if e = 'e' ∨ e = 'E' then _ else none) = none
    by_cases he : e = 'e' ∨ e = 'E'
    · rw [if_pos he]
      have hrest : ',' ∈ rest := by
        rcases List.mem_cons.mp hm with hc | h'
        · rcases he with he | he <;> exact absurd (hc ▸ he) (by decide)
        · exact h'
      rcases rest with _ | ⟨c, ds⟩
      · cases hrest
      · show (if c = '+' then (allDigitsVal ds).map _
          else if c = '-' then (allDigitsVal ds).map _
          else (allDigitsVal (c :: ds)).map _) = none
        have hds : c ≠ ',' → ',' ∈ ds := by
          intro hnc
          rcases List.mem_cons.mp hrest with hc | h'
          · exact absurd hc.symm hnc
          · exact h'
        by_cases hc1 : c = '+'
        · rw [if_pos hc1, allDigitsVal_none_of_comma (hds (by rw [hc1]; decide))]
          rfl
        · rw [if_neg hc1]
          by_cases hc2 : c = '-'
          · rw [if_pos hc2, allDigitsVal_none_of_comma (hds (by rw [hc2]; decide))]
            rfl
          · rw [if_neg hc2, allDigitsVal_none_of_comma hrest]
            rfl
    · rw [if_neg he]

theorem parseDecimal_none_of_comma {s : List Char} (hm : ',' ∈ s) :
    parseDecimal s = none := by
  have hip : ',' ∉ s.takeWhile isDigitB := fun hmem =>
    absurd (List.mem_takeWhile_imp hmem) (by decide)
  have hr1 : ',' ∈ s.dropWhile isDigitB := by
    have hsplit := List.takeWhile_append_dropWhile (p := isDigitB) (l := s)
    have hmem : ',' ∈ s.takeWhile isDigitB ++ s.dropWhile isDigitB := by
      rw [hsplit]; exact hm
    rcases List.mem_append.mp hmem with h' | h'
    · exact absurd h' hip
    · exact h'
  unfold parseDecimal
  rcases hd : s.dropWhile isDigitB with _ | ⟨c, r2⟩
  · rw [hd] at hr1; cases hr1
  · rw [hd] at hr1
    show (if c = '.' then
        (if s.takeWhile isDigitB = [] ∧ r2.takeWhile isDigitB = [] then none
          else (parseExpPart (r2.dropWhile isDigitB)).map
            (fun e => mkDec (s.takeWhile isDigitB) (r2.takeWhile isDigitB) e))
      else if s.takeWhile isDigitB = [] then none
      else (parseExpPart (c :: r2)).map
        (fun e => mkDec (s.takeWhile isDigitB) [] e)) = none
    by_cases hc : c = '.'
    · rw [if_pos hc]
      have hr2 : ',' ∈ r2 := by
        rcases List.mem_cons.mp hr1 with h' | h'
        · exact absurd (h'.trans hc) (by decide)
        · exact h'
      have hr3 : ',' ∈ r2.dropWhile isDigitB := by
        have hsplit := List.takeWhile_append_dropWhile (p := isDigitB) (l := r2)
        have hmem : ',' ∈ r2.takeWhile isDigitB ++ r2.dropWhile isDigitB := by
          rw [hsplit]; exact hr2
        rcases List.mem_append.mp hmem with h' | h'
        · exact absurd (List.mem_takeWhile_imp h') (by decide)
        · exact h'
      split_ifs
      · rfl
      · rw [parseExpPart_none_of_comma hr3]
        rfl
    · rw [if_neg hc]
      split_ifs
      · rfl
      · rw [parseExpPart_none_of_comma hr1]
        rfl

theorem unsignedNum_none_of_comma {s : List Char} (h : ',' ∈ s) :
    unsignedNum s = none := by
  unfold unsignedNum
  rw [if_neg (fun heq => absurd (heq ▸ h) (by decide)), parseDecimal_none_of_comma h]
  rfl

theorem signedNum_none_of_comma {s : List Char} (h : ',' ∈ s) :
    signedNum s = none := by
  rcases s with _ | ⟨c, r⟩
  · cases h
  · rw [signedNum_cons]
    have hr : c ≠ ',' → ',' ∈ r := by
      intro hnc
      rcases List.mem_cons.mp h with hc | h'
      · exact absurd hc.symm hnc
      · exact h'
    by_cases h1 : c = '+'
    · rw [if_pos h1]
      exact unsignedNum_none_of_comma (hr (by rw [h1]; decide))
    · rw [if_neg h1]
      by_cases h2 : c = '-'
      · rw [if_pos h2, unsignedNum_none_of_comma (hr (by rw [h2]; decide))]
        rfl
      · rw [if_neg h2]
        exact unsignedNum_none_of_comma h

theorem jsStrToNum_none_of_comma {s : List Char} (h : ',' ∈ s) :
    jsStrToNum s = none := by
  have ht : ',' ∈ jsTrim s := mem_jsTrim_of_not_ws h (by decide)
  have hne : jsTrim s ≠ [] := fun hh => by rw [hh] at ht; cases ht
  unfold jsStrToNum
  rw [if_neg hne]
  rcases hts : jsTrim s with _ | ⟨a, _ | ⟨x, rest⟩⟩
  · exact absurd hts hne
  · rw [hts] at ht
    rw [jsStrToNumCore_single]
    exact signedNum_none_of_comma ht
  · rw [hts] at ht
    rw [jsStrToNumCore_cons2]
    have hax : (a = '0' ∧ (x = 'x' ∨ x = 'X')) ∨ (a = '0' ∧ (x = 'o' ∨ x = 'O')) ∨
        (a = '0' ∧ (x = 'b' ∨ x = 'B')) → ',' ∈ rest := by
      rintro hcase
      rcases List.mem_cons.mp ht with hc | h'
      · rcases hcase with ⟨ha, -⟩ | ⟨ha, -⟩ | ⟨ha, -⟩ <;> exact absurd (hc.trans ha) (by decide)
      · rcases List.mem_cons.mp h' with hc | h''
        · exfalso
          rcases hcase with ⟨-, hx | hx⟩ | ⟨-, hx | hx⟩ | ⟨-, hx | hx⟩ <;>
            exact absurd (hc.trans hx) (by decide)
        · exact h''
    split_ifs with hx1 hx2 hx3
    · rw [radixVal_none_of_comma (hax (Or.inl hx1))]
      rfl
    · rw [radixVal_none_of_comma (hax (Or.inr (Or.inl hx2)))]
      rfl
    · rw [radixVal_none_of_comma (hax (Or.inr (Or.inr hx3)))]
      rfl
    · exact signedNum_none_of_comma ht

/-!
## Remaining helper lemmas
-/

theorem zip_self_map {α β : Type} (l : List α) (g : α → β) :
    l.zip (l.map g) = l.map (fun a => (a, g a)) := by
  induction l with
  | nil => rfl
  | cons a l' ih => simp [ih]

theorem findInvalid_none_iff {h : List Char} :
    findInvalid h = none ↔ h.all isAlnum = true := by
  unfold findInvalid
  rw [List.find?_eq_none, List.all_eq_true]
  constructor
  · intro hall c hc
    have := hall c hc
    simpa using this
  · intro hall c hc
    simp [hall c hc]

theorem checkHeaders_none_iff {ls : List (List Char)} :
    checkHeaders ls = none ↔ ∀ h ∈ ls, h.all isAlnum = true := by
  induction ls with
  | nil => simp [checkHeaders]
  | cons h0 rest ih =>
    rw [show checkHeaders (h0 :: rest) =
      (match findInvalid h0 with
        | some c => some (h0, c)
        | none => checkHeaders rest) from rfl]
    cases hf : findInvalid h0 with
    | some c =>
      constructor
      · intro hh; cases hh
      · intro hall
        have := findInvalid_none_iff.mpr (hall h0 (by simp))
        rw [hf] at this
        cases this
    | none =>
      rw [ih]
      constructor
      · intro hall h hm
        rcases List.mem_cons.mp hm with rfl | hm'
        · exact findInvalid_none_iff.mp hf
        · exact hall h hm'
      · intro hall h hm
        exact hall h (by simp [hm])

theorem checkHeaders_some {ls : List (List Char)} {nm : List Char} {c : Char}
    (h : checkHeaders ls = some (nm, c)) :
    nm ∈ ls ∧ findInvalid nm = some c := by
  induction ls with
  | nil => cases h
  | cons h0 rest ih =>
    rw [show checkHeaders (h0 :: rest) =
      (match findInvalid h0 with
        | some c => some (h0, c)
        | none => checkHeaders rest) from rfl] at h
    cases hf : findInvalid h0 with
    | some c0 =>
      rw [hf] at h
      have h1 : h0 = nm := congrArg Prod.fst (Option.some.inj h)
      have h2 : c0 = c := congrArg Prod.snd (Option.some.inj h)
      refine ⟨by simp [h1], ?_⟩
      rw [← h1, hf, h2]
    | none =>
      rw [hf] at h
      obtain ⟨hm, hfi⟩ := ih h
      exact ⟨by simp [hm], hfi⟩

theorem findIdx?_eq_none_of_all {α : Type} {l : List α} {p : α → Bool}
    (h : ∀ x ∈ l, p x = false) : l.findIdx? p = none := by
  rw [List.findIdx?_eq_none_iff]
  intro x hx
  simp [h x hx]


theorem ratSub_eq (a b : ℚ) : ratSub a b = a - b := by
  unfold ratSub
  rw [Rat.mkRat_eq_div]
  have hda : ((a.den : ℚ)) ≠ 0 := by
    exact_mod_cast a.den_nz
  have hdb : ((b.den : ℚ)) ≠ 0 := by
    exact_mod_cast b.den_nz
  conv_rhs => rw [← Rat.num_div_den a, ← Rat.num_div_den b]
  push_cast
  field_simp
  ring

theorem parseValue_eq (v : List Char) :
    parseValue v =
      (if jsTrim (jsToLower v) = "null".data ∨ jsTrim (jsToLower v) = [] then Value.null
      else if jsTrim (jsToLower v) = "true".data ∨ jsTrim (jsToLower v) = "false".data then
        Value.bool (jsTrim (jsToLower v) = "true".data)
      else
        match jsStrToNum (jsTrim (jsToLower v)) with
        | some n => Value.num n
        | none => Value.str (jsTrim (jsToLower v))) := rfl

theorem mem_of_mem_jsTrim {c : Char} {l : List Char} (h : c ∈ jsTrim l) : c ∈ l := by
  unfold jsTrim at h
  rw [List.mem_reverse] at h
  have h1 : c ∈ (l.dropWhile isWs).reverse := (List.dropWhile_sublist _).subset h
  rw [List.mem_reverse] at h1
  exact (List.dropWhile_sublist _).subset h1

/-!
## Claim theorems
-/

/-- C1 (counterexample): the round-trip claim fails as stated — the record
`{name: "Jane"}` decodes from its own encoding to `{name: "jane"}`, because
`parseValue` lower-cases every decoded string. -/
theorem claim_C1_counterexample :
    parseRowObj (encodeRow ["name".data] [("name".data, Value.str "Jane".data)] ",".data)
      ["name".data] = some [("name".data, Value.str "jane".data)] ∧
    some [("name".data, Value.str "jane".data)] ≠
      some [("name".data, Value.str "Jane".data)] := by
  decide

/-- C1 (amended): decode ∘ encode is the identity on records over a nonempty
duplicate-free schema whose values are null, booleans, integer-valued
numbers, or ASCII strings (the ASCII model of `toLowerCase` is exact there)
that are nonempty, already lower-case and trimmed, not numeric, distinct
from the reserved literals, free of quotes and line terminators, and free of
whitespace when they do not contain the delimiter `,` (in which case the
encoder quotes them). -/
theorem claim_C1_roundtrip (hs : List (List Char)) (f : List Char → Value)
    (hne : hs ≠ []) (hnd : hs.Nodup) (hok : ∀ h ∈ hs, okValue (f h)) :
    parseRowObj (encodeRow hs (mkEntry hs f) [',']) hs = some (mkEntry hs f) := by
  have htoks : regexScan (encodeRow hs (mkEntry hs f) [',']) =
      hs.map (fun h => encodeValueToken (f h)) := by
    rw [encodeRow_mkEntry hnd]
    apply regexScan_joinComma
    · simp [hne]
    · intro t ht
      obtain ⟨h, hmem, rfl⟩ := List.mem_map.mp ht
      exact okToken_encode (hok h hmem)
  rw [parseRowObj_eq hne, htoks]
  rcases hts : hs.map (fun h => encodeValueToken (f h)) with _ | ⟨t0, ts'⟩
  · exact absurd (List.map_eq_nil_iff.mp hts) hne
  · show parseRowLoop [] hs (t0 :: ts') = some (mkEntry hs f)
    rw [← hts, parseRowLoop_zip hs _ [] (by simp) hnd
      (fun h _ hc => List.not_mem_nil h hc)]
    rw [List.map_map, zip_self_map, List.nil_append]
    unfold mkEntry
    congr 1
    apply List.map_congr_left
    intro h hmem
    have hdec := decodeToken_encode (hok h hmem)
    unfold decodeToken at hdec
    show (h, parseValue (stripQuotes (encodeValueToken (f h)))) = (h, f h)
    rw [hdec]

theorem claim_C1_witness :
    parseRowObj (encodeRow ["id".data, "name".data]
        (mkEntry ["id".data, "name".data] fC1) [','])
      ["id".data, "name".data] = some (mkEntry ["id".data, "name".data] fC1) := by
  apply claim_C1_roundtrip
  · decide
  · decide
  · intro h hmem
    rcases List.mem_cons.mp hmem with rfl | hmem'
    · show okValue (fC1 "id".data)
      rw [show fC1 "id".data = .num (.fin 7) from rfl]
      exact ⟨7, congrArg JSNum.fin (by norm_num)⟩
    · rcases List.mem_cons.mp hmem' with rfl | hmem''
      · show okValue (fC1 "name".data)
        rw [show fC1 "name".data = .str "jane".data from rfl]
        show okString "jane".data
        decide
      · cases hmem''

/-- C2: decoding `"1,Jane,19"` under `[id, name, age]` infers `id` and `age`
as the numbers 1 and 19, but the string field comes out lower-cased:
`name = "jane"`, not `"Jane"` as the claim (and the spec and README) state. -/
theorem claim_C2_lowercases :
    parseRowObj "1,Jane,19".data ["id".data, "name".data, "age".data] =
      some [("id".data, Value.num (.fin 1)), ("name".data, Value.str "jane".data),
        ("age".data, Value.num (.fin 19))] ∧
    Value.str "jane".data ≠ Value.str "Jane".data := by
  decide

/-- C3 (counterexample): the tokenizer does not produce one token per field —
the empty field of `"a,,b"` is dropped entirely, so token 1 is `"b"`, not the
empty string, and alignment with a 3-field schema is lost. -/
theorem claim_C3_counterexample :
    regexScan "a,,b".data = ["a".data, "b".data] ∧
    regexScan "a,,b".data ≠ ["a".data, [], "b".data] := by
  decide

/-- C3 (amended): on a line that is the comma-join of nonempty fields, each
either quoted (its content free of quotes and line terminators, commas
allowed) or unquoted without `"`, `,` or whitespace, the tokenizer returns
exactly one token per field, in order — quoted fields containing the
delimiter are never split. -/
theorem claim_C3_split (ts : List (List Char)) (hne : ts ≠ [])
    (hok : ∀ t ∈ ts, okToken t) :
    regexScan (joinChunks [','] ts) = ts :=
  regexScan_joinComma ts hne hok

theorem claim_C3_witness :
    regexScan (joinChunks [','] ["\"a,b\"".data, "c".data]) =
      ["\"a,b\"".data, "c".data] := by
  apply claim_C3_split
  · decide
  · intro t ht
    rcases List.mem_cons.mp ht with rfl | ht'
    · exact Or.inr ⟨"a,b".data, by decide, by decide⟩
    · rcases List.mem_cons.mp ht' with rfl | ht''
      · exact Or.inl (by decide)
      · cases ht''

/-- C4 (counterexample): encoding the delimiter-containing string `"A,B"`
quotes it, but decoding the quoted token yields `"a,b"` — lower-cased, not
the original string. -/
theorem claim_C4_counterexample :
    encodeField [("v".data, Value.str "A,B".data)] ",".data "v".data =
      some (Value.str "\"A,B\"".data) ∧
    decodeToken "\"A,B\"".data = Value.str "a,b".data ∧
    Value.str "a,b".data ≠ Value.str "A,B".data := by
  decide

/-- C4 (amended): for the delimiter `,`, a string value containing the
delimiter is encoded as the string wrapped in exactly one pair of double
quotes with no other change, and decoding that token strips exactly that
pair and returns the string — provided the string is ASCII (so that the
ASCII model of `toLowerCase` is exact on it), already lower-case and
trimmed (the decoder lower-cases and trims unconditionally). -/
theorem claim_C4_quoting (s : List Char) (h : List Char)
    (_hascii : ∀ c ∈ s, c.toNat ≤ 127)
    (hcon : listContains s [','] = true) (hlow : jsToLower s = s)
    (htrim : jsTrim s = s) :
    encodeField [(h, Value.str s)] [','] h = some (Value.str ('"' :: (s ++ ['"']))) ∧
    decodeToken ('"' :: (s ++ ['"'])) = Value.str s := by
  have hmem : ',' ∈ s := mem_of_listContains hcon
  have hne : s ≠ [] := fun hh => by rw [hh] at hmem; cases hmem
  constructor
  · unfold encodeField
    rw [show rowLookup [(h, Value.str s)] h = some (Value.str s) from by
      unfold rowLookup
      rw [if_pos rfl]]
    show (if listContains (valueToString (Value.str s)) [','] = true
      then some (Value.str ('"' :: (valueToString (Value.str s) ++ ['"'])))
      else some (Value.str s)) = _
    rw [show valueToString (Value.str s) = s from rfl, if_pos hcon]
  · unfold decodeToken
    rw [stripQuotes_quoted]
    unfold parseValue
    rw [hlow, htrim,
      if_neg (by
        rintro (hc | hc)
        · exact absurd (hc ▸ hmem) (by decide)
        · exact hne hc),
      if_neg (by rintro (hc | hc) <;> exact absurd (hc ▸ hmem) (by decide)),
      jsStrToNum_none_of_comma hmem]

theorem claim_C4_witness :
    encodeField [("v".data, Value.str "a,b".data)] [','] "v".data =
      some (Value.str ('"' :: ("a,b".data ++ ['"']))) ∧
    decodeToken ('"' :: ("a,b".data ++ ['"'])) = Value.str "a,b".data :=
  claim_C4_quoting "a,b".data "v".data (by decide) (by decide) (by decide) (by decide)

/-- C5 (counterexample): the header `"?"` strips to the empty field name,
which the code accepts — no error is thrown, although the claim requires the
stripped name to be nonempty and match `[A-Za-z0-9]+`. -/
theorem claim_C5_counterexample :
    stripHeaders ["?".data] = Except.ok [[]] ∧ stripHeaderToken "?".data = [] := by
  decide

/-- C5 (amended): each header token is stripped of its type tag, its
trailing `?`, and then surrounding whitespace; construction succeeds exactly
when every stripped name consists solely of `[A-Za-z0-9]` characters
(the empty name is allowed), and on failure the error carries the first
offending stripped field together with a non-alphanumeric character
occurring in it. -/
theorem claim_C5_validation (hs : List (List Char)) :
    (stripHeaders hs = .ok (hs.map stripHeaderToken) ↔
      ∀ h ∈ hs, (stripHeaderToken h).all isAlnum = true) ∧
    (∀ nm c, stripHeaders hs = .error (nm, c) →
      nm ∈ hs.map stripHeaderToken ∧ isAlnum c = false ∧ c ∈ nm) := by
  by_cases hemp : hs = []
  · subst hemp
    constructor
    · constructor
      · intro _ h hm
        cases hm
      · intro _
        rfl
    · intro nm c h
      simp [stripHeaders] at h
  · have hunfold : stripHeaders hs =
        (match checkHeaders (hs.map stripHeaderToken) with
          | some e => .error e
          | none => .ok (hs.map stripHeaderToken)) := by
      unfold stripHeaders
      rw [if_neg hemp]
    constructor
    · rw [hunfold]
      cases hch : checkHeaders (hs.map stripHeaderToken) with
      | some e =>
        constructor
        · intro h
          simp at h
        · intro hall
          exfalso
          have hnone : checkHeaders (hs.map stripHeaderToken) = none := by
            rw [checkHeaders_none_iff]
            intro h hm
            obtain ⟨h0, hm0, rfl⟩ := List.mem_map.mp hm
            exact hall h0 hm0
          rw [hch] at hnone
          cases hnone
      | none =>
        constructor
        · intro _ h hm
          exact checkHeaders_none_iff.mp hch _ (List.mem_map.mpr ⟨h, hm, rfl⟩)
        · intro _
          rfl
    · intro nm c herr
      rw [hunfold] at herr
      cases hch : checkHeaders (hs.map stripHeaderToken) with
      | some e =>
        rw [hch] at herr
        injection herr with he
        subst he
        obtain ⟨hm, hfi⟩ := checkHeaders_some hch
        refine ⟨hm, ?_, ?_⟩
        · have := List.find?_some hfi
          simpa using this
        · exact List.mem_of_find?_eq_some hfi
      | none =>
        rw [hch] at herr
        simp at herr

theorem claim_C5_witness :
    "na me".data ∈ (["na me".data].map stripHeaderToken) ∧
    isAlnum ' ' = false ∧ ' ' ∈ "na me".data :=
  (claim_C5_validation ["na me".data]).2 "na me".data ' ' (by decide)

/-- C6 (counterexample): row decode is not total when tokens are missing —
decoding `"x"` under the 2-field schema `[a, b]` crashes (the `undefined`
element access throws) instead of yielding `b ↦ null`. -/
theorem claim_C6_counterexample :
    parseRowObj "x".data ["a".data, "b".data] = none := by
  decide

/-- C6 (amended): with a nonempty schema, tokens beyond the schema length
are ignored (decode depends only on the first `headers.length` tokens, and
is total there); but when the tokenizer yields fewer tokens than the schema
length, decode throws (`none`) rather than yielding null for the missing
fields. -/
theorem claim_C6_token_count (headers : List (List Char)) (line : List Char)
    (hne : headers ≠ []) :
    ((regexScan line).length < headers.length → parseRowObj line headers = none) ∧
    (headers.length ≤ (regexScan line).length →
      parseRowObj line headers =
        parseRowLoop [] headers ((regexScan line).take headers.length) ∧
      (parseRowObj line headers).isSome = true) := by
  rw [parseRowObj_eq hne]
  cases hscan : regexScan line with
  | nil =>
    constructor
    · intro _
      rfl
    · intro hle
      exfalso
      have hpos : 0 < headers.length := List.length_pos.mpr hne
      have h0 : headers.length ≤ 0 := by simpa using hle
      omega
  | cons p ps =>
    constructor
    · intro hlt
      show parseRowLoop [] headers (p :: ps) = none
      exact parseRowLoop_short headers (p :: ps) [] hlt
    · intro hle
      exact parseRowLoop_take headers (p :: ps) [] hle

theorem claim_C6_witness :
    ((regexScan "x,y".data).length < (["a".data] : List (List Char)).length →
      parseRowObj "x,y".data ["a".data] = none) ∧
    ((["a".data] : List (List Char)).length ≤ (regexScan "x,y".data).length →
      parseRowObj "x,y".data ["a".data] =
        parseRowLoop [] ["a".data]
          ((regexScan "x,y".data).take (["a".data] : List (List Char)).length) ∧
      (parseRowObj "x,y".data ["a".data]).isSome = true) :=
  claim_C6_token_count ["a".data] "x,y".data (by decide)

/-- C7: `CSV.sort` of src/csv.ts with the write flag set does NOT truncate —
it appends the sorted entries to the file as it stands.  Starting from the
lines `john,21`/`jane,19` and sorting ascending by age, the file ends with
four record lines (the old two followed by the sorted two), not just the
sorted entries; the src/index.ts variant clears first and matches the claim. -/
theorem claim_C7_sort_appends :
    csvSort ["john,21".data, "jane,19".data] ["name".data, "age".data] ",".data
        cmpAge true =
      some (["john,21".data, "jane,19".data, "jane,19".data, "john,21".data],
        [[("name".data, Value.str "jane".data), ("age".data, Value.num (.fin 19))],
         [("name".data, Value.str "john".data), ("age".data, Value.num (.fin 21))]]) ∧
    (["john,21".data, "jane,19".data, "jane,19".data, "john,21".data] :
        List (List Char)) ≠ ["jane,19".data, "john,21".data] ∧
    csvSortIndex ["john,21".data, "jane,19".data] ["name".data, "age".data] ",".data
        cmpAge true =
      some (["jane,19".data, "john,21".data],
        [[("name".data, Value.str "jane".data), ("age".data, Value.num (.fin 19))],
         [("name".data, Value.str "john".data), ("age".data, Value.num (.fin 21))]]) := by
  refine ⟨by decide, by decide, by decide⟩

/-- C8: decoding is independent of the declared types — raw header lists
with the same stripped field names produce identical decodes for every line. -/
theorem claim_C8_type_erasure (hs1 hs2 : List (List Char)) (line : List Char)
    (h : hs1.map stripHeaderToken = hs2.map stripHeaderToken) :
    decodeWithRawHeaders hs1 line = decodeWithRawHeaders hs2 line := by
  unfold decodeWithRawHeaders stripHeaders
  by_cases h1 : hs1 = []
  · subst h1
    have h2 : hs2 = [] := List.map_eq_nil_iff.mp (by rw [← h]; rfl)
    subst h2
    rfl
  · have h2 : hs2 ≠ [] := by
      intro hh
      subst hh
      exact h1 (List.map_eq_nil_iff.mp (by rw [h]; rfl))
    rw [if_neg h1, if_neg h2, h]

theorem claim_C8_witness :
    decodeWithRawHeaders ["n:age?".data] "19".data =
      decodeWithRawHeaders ["age".data] "19".data :=
  claim_C8_type_erasure ["n:age?".data] ["age".data] "19".data (by decide)

/-- C9 (counterexample): `delete` called with an index at which no entry
exists still clears and rewrites the file from the decoded entries, which can
change the stored bytes: a file holding the line `True` is rewritten to
`true`. -/
theorem claim_C9_counterexample :
    csvDeleteIdx ["True".data] ["flag".data] ",".data 5 = some ["true".data] ∧
    (["true".data] : List (List Char)) ≠ ["True".data] := by
  decide

/-- C9 (amended): `delete` with a predicate matching no entry returns before
any write, leaving the file lines exactly unchanged; but `delete` with an
out-of-range index always clears and rewrites the file with the re-encoded
entries. -/
theorem claim_C9_delete_frame (lines headers : List (List Char))
    (delim : List Char) (p : Row → Bool) (entries : List Row)
    (hread : csvRead lines headers = some entries)
    (hnone : ∀ e ∈ entries, p e = false) :
    csvDeleteFn lines headers delim p = some lines ∧
    ∀ i, entries.length ≤ i →
      csvDeleteIdx lines headers delim i =
        some (csvWrite csvClear headers delim entries) := by
  constructor
  · unfold csvDeleteFn
    rw [hread]
    show (match entries.findIdx? p with
      | none => some lines
      | some i => some (csvWrite csvClear headers delim (entries.eraseIdx i))) =
        some lines
    rw [findIdx?_eq_none_of_all hnone]
  · intro i hi
    unfold csvDeleteIdx
    rw [hread]
    show some (csvWrite csvClear headers delim (entries.eraseIdx i)) = _
    rw [List.eraseIdx_of_length_le hi]

theorem claim_C9_witness :
    csvDeleteFn ["1".data] ["a".data] ",".data (fun _ => false) = some ["1".data] ∧
    csvDeleteIdx ["1".data] ["a".data] ",".data 5 =
      some (csvWrite csvClear ["a".data] ",".data
        [[("a".data, Value.num (.fin 1))]]) := by
  have h := claim_C9_delete_frame ["1".data] ["a".data] ",".data (fun _ => false)
    [[("a".data, Value.num (.fin 1))]] (by decide) (fun e _ => rfl)
  exact ⟨h.1, h.2 5 (by decide)⟩

/-- C10: value decoding cannot distinguish inputs differing only in letter
case — `parseValue s = parseValue (toLowerCase s)` for every `s` — and every
string `parseValue` returns contains no ASCII upper-case letter. -/
theorem claim_C10_case_insensitive (s : List Char) :
    parseValue s = parseValue (jsToLower s) ∧
    (∀ t, parseValue s = .str t → t.all (fun c => !isUpperChar c) = true) := by
  constructor
  · unfold parseValue
    rw [jsToLower_idem]
  · intro t ht
    rw [parseValue_eq] at ht
    split_ifs at ht
    cases hjs : jsStrToNum (jsTrim (jsToLower s)) with
    | some n =>
      rw [hjs] at ht
      simp at ht
    | none =>
        rw [hjs] at ht
        simp only [Value.str.injEq] at ht
        rw [← ht, List.all_eq_true]
        intro c hc
        have hc1 : c ∈ jsToLower s := mem_of_mem_jsTrim hc
        obtain ⟨c0, -, rfl⟩ := List.mem_map.mp hc1
        have hno := toLowerChar_not_upper c0
        show (!isUpperChar (toLowerChar c0)) = true
        have hfalse : isUpperChar (toLowerChar c0) = false := by
          rcases hno with hlow | hhigh
          · have hd : (decide (65 ≤ (toLowerChar c0).toNat)) = false :=
              decide_eq_false (by omega)
            simp [isUpperChar, hd]
          · have hd : (decide ((toLowerChar c0).toNat ≤ 90)) = false :=
              decide_eq_false (by omega)
            simp [isUpperChar, hd]
        rw [hfalse]
        rfl

theorem claim_C10_witness :
    parseValue "AB".data = parseValue (jsToLower "AB".data) ∧
    "ab".data.all (fun c => !isUpperChar c) = true :=
  ⟨(claim_C10_case_insensitive "AB".data).1,
   (claim_C10_case_insensitive "AB".data).2 "ab".data (by decide)⟩

end CsvRw
